import Mathlib

/-!
The group of dockership, `core/docker_group.go`.

A shallow embedding of the fan-out/fan-in group of `core/docker_group.go`.

* The group's `dockers map[string]*Docker` is an association list with distinct keys.
* A Go `error` is an `Option`: `none` is `nil`.
* A value of type `interface{}` is a `Dyn`: one constructor per pointer type the file
  puts in the channel, so the type assertion `e.(*T)` is a function into `Option`.
* `batchInterfaceResult` starts one goroutine per client, so its behaviour depends on the
  scheduler.  It is a transition system on `BatchState`; a run is a list of `Action`s
  (a schedule), and `batchInterfaceResult d f sched` is what the call returns when the
  scheduler runs `sched`.
* Two calls in flight on one group are the product of two such systems over the one
  counter of the group's `sync.WaitGroup` (`PairState`, `pairStep`, `pairExec`).
-/

namespace Dockership

/-! ## Data model -/

/-- The part of `Environment` the file reads: the ordered list of end points. The rest of
the configuration is kept abstract in `config`. -/
structure Environment (Cfg : Type) where
  DockerEndPoints : List String
  config : Cfg

/-- `DockerGroup` (lines 8-12). The embedded `sync.WaitGroup` is the `wg` counter of
`BatchState`: it holds 0 whenever no call is in flight. -/
structure DockerGroup (Cfg D : Type) where
  environment : Environment Cfg
  dockers : List (String × D)

/-- Map assignment `m[k] = v`: overwrite the entry of `k`, or add one. -/
def mapAssign {D : Type} : List (String × D) → String → D → List (String × D)
  | [], k, v => [(k, v)]
  | (k', v') :: rest, k, v =>
    if k' = k then (k, v) :: rest else (k', v') :: mapAssign rest k v

/-- Map read `m[k]`. -/
def mapLookup {D : Type} : List (String × D) → String → Option D
  | [], _ => none
  | (k', v') :: rest, k => if k' = k then some v' else mapLookup rest k

/-- The keys of the map. -/
def mapKeys {D : Type} (m : List (String × D)) : List String := m.map Prod.fst

/-- The clients the `range d.dockers` loop visits (in an order the runtime chooses). -/
def DockerGroup.clients {Cfg D : Type} (d : DockerGroup Cfg D) : List D :=
  d.dockers.map Prod.snd

/-- The `for` loop of `NewDockerGroup` (lines 20-26) over the end points still to visit.
`NewDocker` is the constructor of the per-endpoint client; it returns the pair
`(d, err)`. -/
def NewDockerGroup.loop {Cfg D E : Type}
    (NewDocker : String → Environment Cfg → D × Option E) (environment : Environment Cfg) :
    List String → DockerGroup Cfg D → Option (DockerGroup Cfg D) × Option E
  | [], dg => (some dg, none)
  | endPoint :: rest, dg =>
    match NewDocker endPoint environment with
    | (d, none) =>
      NewDockerGroup.loop NewDocker environment rest
        { dg with dockers := mapAssign dg.dockers endPoint d }
    | (_, some err) => (none, some err)

/-- `NewDockerGroup` (lines 14-29): the result pair `(*DockerGroup, error)`. -/
def NewDockerGroup {Cfg D E : Type}
    (NewDocker : String → Environment Cfg → D × Option E) (environment : Environment Cfg) :
    Option (DockerGroup Cfg D) × Option E :=
  NewDockerGroup.loop NewDocker environment environment.DockerEndPoints
    { environment := environment, dockers := [] }

/-! ## The dispatch primitive as a transition system -/

/-- Program point of the goroutine that called `batchInterfaceResult`. -/
inductive Pc where
  /-- In the `range d.dockers` loop, lines 124-130. -/
  | ranging
  /-- At `d.Wait()`, line 131. -/
  | waiting
  /-- In the receive loop, lines 134-136. -/
  | draining
  /-- After `return r` and the deferred `close(c)`. -/
  | returned
  deriving DecidableEq, Repr

/-- The state of one call of `batchInterfaceResult`. -/
structure BatchState (D R : Type) where
  /-- Program point of the caller. -/
  pc : Pc
  /-- The local `count := len(d.dockers)`. -/
  count : Nat
  /-- Capacity of the channel `c := make(chan interface{}, count)`. -/
  cap : Nat
  /-- Map entries the `range` loop has not visited yet. -/
  todo : List D
  /-- Goroutines started that have not yet executed `c <- f(docker)`. -/
  running : List D
  /-- Goroutines that have sent and whose deferred `d.Done()` has not run yet. -/
  finishing : Nat
  /-- The counter of the embedded `sync.WaitGroup`. -/
  wg : Int
  /-- The buffer of the channel `c`, oldest value first. -/
  buf : List R
  /-- Whether `c` has been closed. -/
  closed : Bool
  /-- The loop variable `i` of the receive loop. -/
  i : Nat
  /-- The local `r`. -/
  r : List R

/-- One scheduling decision. -/
inductive Action where
  /-- The `range` loop visits entry `k` of the entries left: `d.Add(1)` and `go`. -/
  | spawn (k : Nat)
  /-- The `range` loop finds no entry left and the caller reaches `d.Wait()`. -/
  | endRange
  /-- Goroutine `k` of those running evaluates `f(docker)` and sends it on `c`. -/
  | send (k : Nat)
  /-- A goroutine that has sent runs its deferred `d.Done()`. -/
  | done
  /-- The call `d.Wait()` returns. -/
  | wait
  /-- One iteration of the receive loop: `r = append(r, <-c)`. -/
  | recv
  /-- The receive loop ends; `return r`, then the deferred `close(c)`. -/
  | ret
  deriving DecidableEq, Repr

/-- The state at entry of `batchInterfaceResult` (lines 120-122) for a group whose
clients are `dockers`, no other call being in flight. -/
def BatchState.init {D R : Type} (dockers : List D) : BatchState D R :=
  { pc := .ranging, count := dockers.length, cap := dockers.length, todo := dockers,
    running := [], finishing := 0, wg := 0, buf := [], closed := false, i := 0, r := [] }

/-- One step of the system. `none` means the action cannot be taken in this state: the
thread is not at that program point, it is blocked (send on a full channel, receive on an
empty one, `Wait` on a non-zero counter), or the runtime would raise (send on a closed
channel, negative `WaitGroup` counter). -/
def step {D R : Type} (f : D → R) (a : Action) (s : BatchState D R) :
    Option (BatchState D R) :=
  match a with
  | .spawn k =>
    if s.pc = .ranging then
      match s.todo[k]? with
      | some docker =>
        some { s with todo := s.todo.eraseIdx k, wg := s.wg + 1,
                      running := s.running ++ [docker] }
      | none => none
    else none
  | .endRange =>
    if s.pc = .ranging ∧ s.todo.length = 0 then some { s with pc := .waiting } else none
  | .send k =>
    match s.running[k]? with
    | some docker =>
      if s.closed = false ∧ s.buf.length < s.cap then
        some { s with running := s.running.eraseIdx k, buf := s.buf ++ [f docker],
                      finishing := s.finishing + 1 }
      else none
    | none => none
  | .done =>
    if 0 < s.finishing ∧ 0 < s.wg then
      some { s with finishing := s.finishing - 1, wg := s.wg - 1 }
    else none
  | .wait =>
    if s.pc = .waiting ∧ s.wg = 0 then some { s with pc := .draining } else none
  | .recv =>
    if s.pc = .draining ∧ s.i < s.count then
      match s.buf with
      | v :: rest => some { s with buf := rest, r := s.r ++ [v], i := s.i + 1 }
      | [] => none
    else none
  | .ret =>
    if s.pc = .draining ∧ ¬ s.i < s.count then
      some { s with pc := .returned, closed := true }
    else none

/-- Run a schedule: `none` as soon as one of its actions cannot be taken. -/
def exec {D R : Type} (f : D → R) : List Action → BatchState D R → Option (BatchState D R)
  | [], s => some s
  | a :: rest, s => (step f a s).bind (exec f rest)

/-- `batchInterfaceResult` (lines 119-139) under the schedule `sched`: `some r` when
`sched` is a run of the call up to its return, with `r` the slice returned. -/
def batchInterfaceResult {Cfg D R : Type} (d : DockerGroup Cfg D) (f : D → R)
    (sched : List Action) : Option (List R) :=
  match exec f sched (BatchState.init d.clients) with
  | some s => if s.pc = .returned then some s.r else none
  | none => none

/-- The states a call on the clients `dockers` can be in. -/
def Reachable {D R : Type} (f : D → R) (dockers : List D) (s : BatchState D R) : Prop :=
  ∃ sched, exec f sched (BatchState.init dockers) = some s

/-- The schedule that visits the entries in list order, lets each goroutine run until it
has finished as soon as it is started, and then collects. -/
def seqSchedule (n : Nat) : List Action :=
  (List.replicate n [Action.spawn 0, Action.send 0, Action.done]).flatten
    ++ [Action.endRange, Action.wait] ++ List.replicate n Action.recv ++ [Action.ret]

/-- The invariant of a call on the clients `dockers`. -/
structure Inv {D R : Type} (f : D → R) (dockers : List D) (s : BatchState D R) : Prop where
  count_eq : s.count = dockers.length
  cap_eq : s.cap = s.count
  wg_eq : s.wg = (s.running.length : Int) + (s.finishing : Int)
  i_eq : s.i = s.r.length
  perm : (s.r ++ s.buf ++ (s.running ++ s.todo).map f).Perm (dockers.map f)
  closed_iff : s.closed = true ↔ s.pc = .returned
  todo_nil : s.pc ≠ .ranging → s.todo = []
  r_nil : s.pc = .ranging ∨ s.pc = .waiting → s.r = []
  idle : s.pc = .draining ∨ s.pc = .returned → s.running = [] ∧ s.finishing = 0
  full : s.pc = .returned → s.buf = []

/-- Rank of a program point: the number of caller transitions between it and the
return, receives apart. -/
def Pc.rank : Pc → Nat
  | .ranging => 3
  | .waiting => 2
  | .draining => 1
  | .returned => 0

/-- The number of steps left before the call has returned. -/
def BatchState.fuel {D R : Type} (s : BatchState D R) : Nat :=
  3 * s.todo.length + 2 * s.running.length + s.finishing + (s.count - s.i) + s.pc.rank

/-! ## The group operations -/

/-- The struct `errorResult` (line 106). -/
structure errorResult (E : Type) where
  err : Option E

/-- The struct `listContainersResult` (lines 45-48). -/
structure listContainersResult (C E : Type) where
  containers : List C
  err : Option E

/-- The struct `listImagesResult` (lines 69-72). -/
structure listImagesResult (I E : Type) where
  images : List I
  err : Option E

/-- A value of type `interface{}` travelling through the channel: a pointer to one of
the three result structs of the file. -/
inductive Dyn (E C I : Type) where
  | ofErrorResult (p : errorResult E)
  | ofListContainersResult (p : listContainersResult C E)
  | ofListImagesResult (p : listImagesResult I E)

/-- The type assertion `e.(*errorResult)`: `none` when it raises. -/
def Dyn.asErrorResult {E C I : Type} : Dyn E C I → Option (errorResult E)
  | .ofErrorResult p => some p
  | _ => none

/-- The type assertion `e.(*listContainersResult)`: `none` when it raises. -/
def Dyn.asListContainersResult {E C I : Type} : Dyn E C I → Option (listContainersResult C E)
  | .ofListContainersResult p => some p
  | _ => none

/-- The type assertion `e.(*listImagesResult)`: `none` when it raises. -/
def Dyn.asListImagesResult {E C I : Type} : Dyn E C I → Option (listImagesResult I E)
  | .ofListImagesResult p => some p
  | _ => none

/-- How a group operation ends under a schedule. -/
inductive Outcome (α : Type) where
  /-- The schedule is not a run of the dispatch up to its return. -/
  | incomplete
  /-- A type assertion of the aggregation loop raised. -/
  | raised
  /-- The operation returned `v`. -/
  | returned (v : α)
  deriving DecidableEq, Repr

/-- The per-endpoint client `*Docker`, as far as the group uses it: its six methods. -/
structure DockerOps (D P Rev DF W E C I : Type) where
  Deploy : D → P → Rev → DF → W → Bool → Option E
  Clean : D → P → Option E
  BuildImage : D → P → Rev → DF → W → Option E
  Run : D → P → Rev → Option E
  ListContainers : D → P → List C × Option E
  ListImages : D → P → List I × Option E

/-- The loop of `batchErrorResult` (lines 110-114) over the collected values still to
visit, `r` being the slice built so far; `none` when the type assertion raises. -/
def batchErrorResult.loop {E C I : Type} : List (Dyn E C I) → List E → Option (List E)
  | [], r => some r
  | e :: rest, r =>
    match e.asErrorResult with
    | none => none
    | some p =>
      match p.err with
      | some err => batchErrorResult.loop rest (r ++ [err])
      | none => batchErrorResult.loop rest r

/-- `batchErrorResult` (lines 108-117). -/
def batchErrorResult {Cfg D E C I : Type} (d : DockerGroup Cfg D) (f : D → Dyn E C I)
    (sched : List Action) : Outcome (List E) :=
  match batchInterfaceResult d f sched with
  | none => .incomplete
  | some rs =>
    match batchErrorResult.loop rs [] with
    | none => .raised
    | some r => .returned r

/-- The loop of `ListContainers` (lines 58-64); the state is `(containers, errors)`. -/
def ListContainers.loop {E C I : Type} :
    List (Dyn E C I) → List C × List E → Option (List C × List E)
  | [], acc => some acc
  | e :: rest, (containers, errors) =>
    match e.asListContainersResult with
    | none => none
    | some l =>
      match l.err with
      | some err => ListContainers.loop rest (containers ++ l.containers, errors ++ [err])
      | none => ListContainers.loop rest (containers ++ l.containers, errors)

/-- The loop of `ListImages` (lines 82-88); the state is `(images, errors)`. -/
def ListImages.loop {E C I : Type} :
    List (Dyn E C I) → List I × List E → Option (List I × List E)
  | [], acc => some acc
  | e :: rest, (images, errors) =>
    match e.asListImagesResult with
    | none => none
    | some l =>
      match l.err with
      | some err => ListImages.loop rest (images ++ l.images, errors ++ [err])
      | none => ListImages.loop rest (images ++ l.images, errors)

section Operations

variable {Cfg D P Rev DF W E C I : Type}

/-- The task function of `Deploy` (lines 33-35). -/
def Deploy.task (api : DockerOps D P Rev DF W E C I) (p : P) (rev : Rev) (dockerfile : DF)
    (output : W) (force : Bool) (docker : D) : Dyn E C I :=
  .ofErrorResult { err := api.Deploy docker p rev dockerfile output force }

/-- `DockerGroup.Deploy` (lines 31-36). -/
def Deploy (api : DockerOps D P Rev DF W E C I) (d : DockerGroup Cfg D) (p : P) (rev : Rev)
    (dockerfile : DF) (output : W) (force : Bool) (sched : List Action) : Outcome (List E) :=
  batchErrorResult d (Deploy.task api p rev dockerfile output force) sched

/-- The task function of `Clean` (lines 40-42). -/
def Clean.task (api : DockerOps D P Rev DF W E C I) (p : P) (docker : D) : Dyn E C I :=
  .ofErrorResult { err := api.Clean docker p }

/-- `DockerGroup.Clean` (lines 38-43). -/
def Clean (api : DockerOps D P Rev DF W E C I) (d : DockerGroup Cfg D) (p : P)
    (sched : List Action) : Outcome (List E) :=
  batchErrorResult d (Clean.task api p) sched

/-- The task function of `BuildImage` (lines 95-97). -/
def BuildImage.task (api : DockerOps D P Rev DF W E C I) (p : P) (rev : Rev)
    (dockerfile : DF) (output : W) (docker : D) : Dyn E C I :=
  .ofErrorResult { err := api.BuildImage docker p rev dockerfile output }

/-- `DockerGroup.BuildImage` (lines 93-98). -/
def BuildImage (api : DockerOps D P Rev DF W E C I) (d : DockerGroup Cfg D) (p : P)
    (rev : Rev) (dockerfile : DF) (output : W) (sched : List Action) : Outcome (List E) :=
  batchErrorResult d (BuildImage.task api p rev dockerfile output) sched

/-- The task function of `Run` (lines 101-103). -/
def Run.task (api : DockerOps D P Rev DF W E C I) (p : P) (rev : Rev) (docker : D) :
    Dyn E C I :=
  .ofErrorResult { err := api.Run docker p rev }

/-- `DockerGroup.Run` (lines 100-104). -/
def Run (api : DockerOps D P Rev DF W E C I) (d : DockerGroup Cfg D) (p : P) (rev : Rev)
    (sched : List Action) : Outcome (List E) :=
  batchErrorResult d (Run.task api p rev) sched

/-- The task function `f` of `ListContainers` (lines 51-54). -/
def ListContainers.task (api : DockerOps D P Rev DF W E C I) (p : P) (docker : D) :
    Dyn E C I :=
  match api.ListContainers docker p with
  | (c, e) => .ofListContainersResult { containers := c, err := e }

/-- `DockerGroup.ListContainers` (lines 50-67). -/
def ListContainers (api : DockerOps D P Rev DF W E C I) (d : DockerGroup Cfg D) (p : P)
    (sched : List Action) : Outcome (List C × List E) :=
  match batchInterfaceResult d (ListContainers.task api p) sched with
  | none => .incomplete
  | some rs =>
    match ListContainers.loop rs ([], []) with
    | none => .raised
    | some out => .returned out

/-- The task function `f` of `ListImages` (lines 75-78). -/
def ListImages.task (api : DockerOps D P Rev DF W E C I) (p : P) (docker : D) :
    Dyn E C I :=
  match api.ListImages docker p with
  | (c, e) => .ofListImagesResult { images := c, err := e }

/-- `DockerGroup.ListImages` (lines 74-91). -/
def ListImages (api : DockerOps D P Rev DF W E C I) (d : DockerGroup Cfg D) (p : P)
    (sched : List Action) : Outcome (List I × List E) :=
  match batchInterfaceResult d (ListImages.task api p) sched with
  | none => .incomplete
  | some rs =>
    match ListImages.loop rs ([], []) with
    | none => .raised
    | some out => .returned out

end Operations

/-! ## Two calls in flight on one group -/

/-- Which of two overlapping calls of `batchInterfaceResult` on one group takes a step. -/
inductive Side where
  | first
  | second
  deriving DecidableEq, Repr

/-- The state of two calls of `batchInterfaceResult` in flight on the same group. Each
call has its own locals, its own channel (line 121) and its own goroutines; both use the
one `sync.WaitGroup` embedded in the group (line 11), whose counter is `wg`. The `wg`
fields of `first` and `second` are set to the shared counter before each step and are
not read otherwise. -/
structure PairState (D R : Type) where
  first : BatchState D R
  second : BatchState D R
  wg : Int

/-- What a run of two overlapping calls leads to. -/
inductive PairOutcome (D R : Type) where
  /-- The steps were taken and led to the state `ps`. -/
  | ok (ps : PairState D R)
  /-- A step could not be taken (see `step`). -/
  | disabled
  /-- One call executed `d.Add(1)` with the counter at zero while the other call was at
  its `d.Wait()`. The documentation of `sync.WaitGroup` requires a call of `Add` with a
  positive delta at counter zero to happen before the `Wait`, and new `Add` calls of a
  reused `WaitGroup` to happen after all previous `Wait` calls have returned; the runtime
  raises on the violation (`sync: WaitGroup is reused before previous Wait has returned`,
  `sync: WaitGroup misuse: Add called concurrently with Wait`). -/
  | misuse

/-- Whether the action executes `d.Add(1)`. -/
def Action.isAdd : Action → Bool
  | .spawn _ => true
  | _ => false

/-- Two calls at their entry on a group whose clients are `dockers`, the counter of the
`WaitGroup` at zero. -/
def PairState.init {D R : Type} (dockers : List D) : PairState D R :=
  { first := BatchState.init dockers, second := BatchState.init dockers, wg := 0 }

/-- One step of one of the two calls: the step of `step` on that call's own state with
the shared counter, the other call's state untouched. -/
def pairStep {D R : Type} (f₁ f₂ : D → R) (side : Side) (a : Action) (ps : PairState D R) :
    PairOutcome D R :=
  match side with
  | .first =>
    match step f₁ a { ps.first with wg := ps.wg } with
    | none => .disabled
    | some s' =>
      if a.isAdd = true ∧ ps.wg = 0 ∧ ps.second.pc = .waiting then .misuse
      else .ok { first := s', second := ps.second, wg := s'.wg }
  | .second =>
    match step f₂ a { ps.second with wg := ps.wg } with
    | none => .disabled
    | some s' =>
      if a.isAdd = true ∧ ps.wg = 0 ∧ ps.first.pc = .waiting then .misuse
      else .ok { first := ps.first, second := s', wg := s'.wg }

/-- Run an interleaving of the two calls. -/
def pairExec {D R : Type} (f₁ f₂ : D → R) :
    List (Side × Action) → PairState D R → PairOutcome D R
  | [], ps => .ok ps
  | (side, a) :: rest, ps =>
    match pairStep f₁ f₂ side a ps with
    | .ok ps' => pairExec f₁ f₂ rest ps'
    | .disabled => .disabled
    | .misuse => .misuse

/-- What call `side` has returned in the state `ps`, if it has returned. -/
def PairState.result {D R : Type} (ps : PairState D R) : Side → Option (List R)
  | .first => if ps.first.pc = .returned then some ps.first.r else none
  | .second => if ps.second.pc = .returned then some ps.second.r else none

/-- The number of goroutines of a call that have not run `d.Done()` yet. -/
def BatchState.pending {D R : Type} (s : BatchState D R) : Int :=
  (s.running.length : Int) + (s.finishing : Int)

/-! ## Vocabulary of the statements -/

/-- The `err` field of the struct a collected value points to. -/
def Dyn.err {E C I : Type} : Dyn E C I → Option E
  | .ofErrorResult p => p.err
  | .ofListContainersResult p => p.err
  | .ofListImagesResult p => p.err

/-- The `containers` field of a collected `*listContainersResult`. -/
def Dyn.containers {E C I : Type} : Dyn E C I → List C
  | .ofListContainersResult p => p.containers
  | _ => []

/-- The `images` field of a collected `*listImagesResult`. -/
def Dyn.images {E C I : Type} : Dyn E C I → List I
  | .ofListImagesResult p => p.images
  | _ => []

/-- The four error-only group operations with their arguments. -/
inductive ErrorOp (P Rev DF W : Type) where
  | deploy (p : P) (rev : Rev) (dockerfile : DF) (output : W) (force : Bool)
  | clean (p : P)
  | buildImage (p : P) (rev : Rev) (dockerfile : DF) (output : W)
  | run (p : P) (rev : Rev)

section Vocabulary

variable {Cfg D P Rev DF W E C I : Type}

/-- The per-endpoint call an error-only operation makes on the client `docker`. -/
def ErrorOp.call (api : DockerOps D P Rev DF W E C I) : ErrorOp P Rev DF W → D → Option E
  | .deploy p rev dockerfile output force, docker =>
    api.Deploy docker p rev dockerfile output force
  | .clean p, docker => api.Clean docker p
  | .buildImage p rev dockerfile output, docker => api.BuildImage docker p rev dockerfile output
  | .run p rev, docker => api.Run docker p rev

/-- The task function an error-only operation hands to `batchErrorResult`. -/
def ErrorOp.task (api : DockerOps D P Rev DF W E C I) : ErrorOp P Rev DF W → D → Dyn E C I
  | .deploy p rev dockerfile output force => Deploy.task api p rev dockerfile output force
  | .clean p => Clean.task api p
  | .buildImage p rev dockerfile output => BuildImage.task api p rev dockerfile output
  | .run p rev => Run.task api p rev

/-- The group method of an error-only operation: `Deploy`, `Clean`, `BuildImage`, `Run`. -/
def ErrorOp.invoke (api : DockerOps D P Rev DF W E C I) (d : DockerGroup Cfg D) :
    ErrorOp P Rev DF W → List Action → Outcome (List E)
  | .deploy p rev dockerfile output force => Deploy api d p rev dockerfile output force
  | .clean p => Clean api d p
  | .buildImage p rev dockerfile output => BuildImage api d p rev dockerfile output
  | .run p rev => Run api d p rev

end Vocabulary

/-! ## Concrete groups used as test inputs -/

/-- The group of the end points `A`, `B`, `C`; a client is named after its end point. -/
def groupABC : DockerGroup Unit String :=
  { environment := { DockerEndPoints := ["A", "B", "C"], config := () },
    dockers := [("A", "A"), ("B", "B"), ("C", "C")] }

/-- The group of the end points `A`, `B`. -/
def groupAB : DockerGroup Unit String :=
  { environment := { DockerEndPoints := ["A", "B"], config := () },
    dockers := [("A", "A"), ("B", "B")] }

/-- The group without end points. -/
def groupEmpty : DockerGroup Unit String :=
  { environment := { DockerEndPoints := [], config := () }, dockers := [] }

/-- Clients on which every call succeeds; `A` lists two images and one container, the
others one image. -/
def healthyOps : DockerOps String Unit Unit Unit Unit String String String :=
  { Deploy := fun _ _ _ _ _ _ => none
    Clean := fun _ _ => none
    BuildImage := fun _ _ _ _ _ => none
    Run := fun _ _ _ => none
    ListContainers := fun docker _ => if docker = "A" then (["web"], none) else ([], none)
    ListImages := fun docker _ =>
      if docker = "A" then (["img1", "img2"], none) else (["img3"], none) }

/-- Clients of which `B` fails: `disk full` on the error-only calls, `timeout` on the
listings, where it returns no value. -/
def diskFullOps : DockerOps String Unit Unit Unit Unit String String String :=
  { Deploy := fun docker _ _ _ _ _ => if docker = "B" then some "disk full" else none
    Clean := fun docker _ => if docker = "B" then some "disk full" else none
    BuildImage := fun docker _ _ _ _ => if docker = "B" then some "disk full" else none
    Run := fun docker _ _ => if docker = "B" then some "disk full" else none
    ListContainers := fun docker _ =>
      if docker = "B" then ([], some "timeout") else (["web"], none)
    ListImages := fun docker _ =>
      if docker = "B" then ([], some "timeout") else (["img1", "img2"], none) }

/-- Clients of which `B` fails on the listings and still returns a value next to its
error. -/
def staleOps : DockerOps String Unit Unit Unit Unit String String String :=
  { Deploy := fun _ _ _ _ _ _ => none
    Clean := fun _ _ => none
    BuildImage := fun _ _ _ _ _ => none
    Run := fun _ _ _ => none
    ListContainers := fun docker _ =>
      if docker = "B" then (["stale"], some "timeout") else (["web"], none)
    ListImages := fun docker _ =>
      if docker = "B" then (["stale"], some "timeout") else (["img1", "img2"], none) }

/-- A schedule of a group of three in which the entries are visited last to first and
the goroutines send in the order second, first, third started. -/
def shuffledSchedule : List Action :=
  [.spawn 2, .spawn 1, .send 1, .spawn 0, .done, .endRange, .send 0, .send 0, .done,
   .done, .wait, .recv, .recv, .recv, .ret]

/-- A client constructor that fails on the end points `B` and `C`. -/
def failingNewDocker (endPoint : String) (_ : Environment Unit) : String × Option String :=
  if endPoint = "B" then ("", some "no route to B")
  else if endPoint = "C" then ("", some "no route to C")
  else (endPoint, none)

/-- A client constructor that always succeeds. -/
def goodNewDocker (endPoint : String) (_ : Environment Unit) : String × Option String :=
  (endPoint, none)

/-- The environment listing the end points `A`, `B`, `C`. -/
def envABC : Environment Unit := { DockerEndPoints := ["A", "B", "C"], config := () }

/-- The environment listing `A`, `B` and `A` again. -/
def envABA : Environment Unit := { DockerEndPoints := ["A", "B", "A"], config := () }

/-- The first steps of `shuffledSchedule`: two goroutines started, one of them has sent
and has not run its `Done` yet. -/
def midSchedule : List Action := [.spawn 2, .spawn 1, .send 1]

/-- The state of a call on the clients `A`, `B`, `C` after `midSchedule`. -/
def midState : BatchState String String :=
  { pc := .ranging, count := 3, cap := 3, todo := ["A"], running := ["C"], finishing := 1,
    wg := 2, buf := ["B!"], closed := false, i := 0, r := [] }

/-- The state of a call on the clients `A`, `B`, `C` when `d.Wait()` is about to return:
the steps of `shuffledSchedule` before its `wait`. -/
def barrierState : BatchState String String :=
  { pc := .waiting, count := 3, cap := 3, todo := [], running := [], finishing := 0,
    wg := 0, buf := ["B!", "C!", "A!"], closed := false, i := 0, r := [] }

/-- The task function of `Deploy` on the clients of `diskFullOps`. -/
def deployTask : String → Dyn String String String :=
  Deploy.task diskFullOps () () () () true

/-- The task function of `ListImages` on the clients of `healthyOps`. -/
def listImagesTask : String → Dyn String String String :=
  ListImages.task healthyOps ()

/-- An interleaving of two calls on the group `A, B` in which the two calls overlap
without harm: the second call starts while the goroutines of the first are running, and
the first passes its `Wait` once the goroutines of both have finished. -/
def overlapSchedule : List (Side × Action) :=
  [(.first, .spawn 0), (.first, .spawn 0), (.second, .spawn 1), (.first, .endRange),
   (.first, .send 1), (.second, .spawn 0), (.second, .send 0), (.first, .send 0),
   (.second, .endRange), (.first, .done), (.second, .send 0), (.first, .done),
   (.second, .done), (.second, .done), (.first, .wait), (.second, .wait),
   (.first, .recv), (.second, .recv), (.first, .recv), (.first, .ret), (.second, .recv),
   (.second, .ret)]

/-- The steps of the first call, alone, up to the moment its goroutines have all run
`Done`: the first call is at `d.Wait()` and the counter is zero. -/
def barrierSchedule : List (Side × Action) :=
  [(.first, .spawn 0), (.first, .spawn 0), (.first, .endRange), (.first, .send 0),
   (.first, .send 0), (.first, .done), (.first, .done)]

/-- The interleaving `barrierSchedule` followed by the first `d.Add(1)` of the second
call. -/
def misuseSchedule : List (Side × Action) := barrierSchedule ++ [(.second, .spawn 0)]

/-! ## The dispatch primitive: invariant, progress, termination -/

section Dispatch

variable {D R : Type}

theorem perm_cons_eraseIdx {α : Type} :
    ∀ (l : List α) (k : Nat) (x : α), l[k]? = some x → l.Perm (x :: l.eraseIdx k)
  | [], k, x, h => by simp at h
  | y :: l, 0, x, h => by
    simp at h
    subst h
    simp
  | y :: l, k + 1, x, h => by
    simp at h
    have ih := perm_cons_eraseIdx l k x h
    simp only [List.eraseIdx_cons_succ]
    exact (List.Perm.cons y ih).trans (List.Perm.swap x y _)

theorem length_eraseIdx_of_getElem? {α : Type} (l : List α) (k : Nat) (x : α)
    (h : l[k]? = some x) : (l.eraseIdx k).length + 1 = l.length := by
  have := (perm_cons_eraseIdx l k x h).length_eq
  simp at this
  omega

theorem inv_init (f : D → R) (ds : List D) : Inv f ds (BatchState.init ds) := by
  constructor <;> simp [BatchState.init]

theorem inv_step {f : D → R} {ds : List D} {a : Action} {s s' : BatchState D R}
    (h : Inv f ds s) (hs : step f a s = some s') : Inv f ds s' := by
  obtain ⟨h1, h2, h3, h4, h5, h6, h7, h8, h9, h10⟩ := h
  cases a with
  | spawn k =>
    simp only [step] at hs
    split at hs
    · rename_i hpc
      split at hs
      · rename_i docker hk
        injection hs with hs
        subst hs
        have hp := perm_cons_eraseIdx s.todo k docker hk
        refine ⟨h1, h2, ?_, h4, ?_, ?_, ?_, ?_, ?_, ?_⟩
        · simp [h3]; ring
        · refine List.Perm.trans ?_ h5
          refine List.Perm.append_left _ (List.Perm.map f ?_)
          simp only [List.append_assoc, List.singleton_append]
          exact List.Perm.append_left _ hp.symm
        · simpa using h6
        · intro hne; exact absurd hpc hne
        · simpa using h8
        · intro hc; simp [hpc] at hc
        · intro hc; simp [hpc] at hc
      · simp at hs
    · simp at hs
  | endRange =>
    simp only [step] at hs
    split at hs
    · rename_i hg
      injection hs with hs
      subst hs
      have htodo : s.todo = [] := List.length_eq_zero.mp hg.2
      refine ⟨h1, h2, h3, h4, h5, ?_, ?_, ?_, ?_, ?_⟩
      · simp [hg.1] at h6; simp [h6]
      · intro _; exact htodo
      · intro _; exact h8 (Or.inl hg.1)
      · intro hc; simp at hc
      · intro hc; simp at hc
    · simp at hs
  | send k =>
    simp only [step] at hs
    split at hs
    · rename_i docker hk
      split at hs
      · rename_i hg
        injection hs with hs
        subst hs
        have hp := perm_cons_eraseIdx s.running k docker hk
        have hl := length_eraseIdx_of_getElem? s.running k docker hk
        have hrun : s.running ≠ [] := by
          intro hc; rw [hc] at hk; simp at hk
        refine ⟨h1, h2, ?_, h4, ?_, h6, h7, h8, ?_, ?_⟩
        · simp only [h3]
          have : (s.running.length : Int) = ((s.running.eraseIdx k).length : Int) + 1 := by
            exact_mod_cast hl.symm
          rw [this]; push_cast; ring
        · refine List.Perm.trans ?_ h5
          have e1 : s.r ++ (s.buf ++ [f docker]) ++ List.map f (s.running.eraseIdx k ++ s.todo)
              = s.r ++ s.buf ++ List.map f (docker :: s.running.eraseIdx k ++ s.todo) := by
            simp
          rw [e1]
          refine List.Perm.append_left _ (List.Perm.map f ?_)
          exact List.Perm.append_right _ hp.symm
        · intro hc; exact absurd (h9 hc).1 hrun
        · intro hc; exact absurd (h9 (Or.inr hc)).1 hrun
      · simp at hs
    · simp at hs
  | done =>
    simp only [step] at hs
    split at hs
    · rename_i hg
      injection hs with hs
      subst hs
      have hfin : s.finishing ≠ 0 := by omega
      refine ⟨h1, h2, ?_, h4, h5, h6, h7, h8, ?_, h10⟩
      · simp only [h3]
        have : ((s.finishing - 1 : Nat) : Int) = (s.finishing : Int) - 1 := by omega
        rw [this]; ring
      · intro hc; exact absurd (h9 hc).2 hfin
    · simp at hs
  | wait =>
    simp only [step] at hs
    split at hs
    · rename_i hg
      injection hs with hs
      subst hs
      have hz : (s.running.length : Int) + (s.finishing : Int) = 0 := by rw [← h3]; exact hg.2
      have hrun : s.running = [] := by
        apply List.length_eq_zero.mp; omega
      have hfin : s.finishing = 0 := by omega
      refine ⟨h1, h2, h3, h4, h5, ?_, ?_, ?_, ?_, ?_⟩
      · simp [hg.1] at h6; simp [h6]
      · intro _; exact h7 (by simp [hg.1])
      · intro hc; simp at hc
      · intro _; exact ⟨hrun, hfin⟩
      · intro hc; simp at hc
    · simp at hs
  | recv =>
    simp only [step] at hs
    split at hs
    · rename_i hg
      split at hs
      · rename_i v rest hb
        injection hs with hs
        subst hs
        refine ⟨h1, h2, h3, ?_, ?_, h6, h7, ?_, h9, ?_⟩
        · simp [h4]
        · rw [hb] at h5; simpa using h5
        · intro hc; simp [hg.1] at hc
        · intro hc; simp [hg.1] at hc
      · simp at hs
    · simp at hs
  | ret =>
    simp only [step] at hs
    split at hs
    · rename_i hg
      injection hs with hs
      subst hs
      have hidle := h9 (Or.inl hg.1)
      have htodo := h7 (by simp [hg.1])
      refine ⟨h1, h2, h3, h4, h5, ?_, ?_, ?_, ?_, ?_⟩
      · simp
      · intro _; exact htodo
      · intro hc; simp at hc
      · intro _; exact hidle
      · intro _
        show s.buf = []
        have hlen := h5.length_eq
        simp [hidle.1, htodo] at hlen
        apply List.length_eq_zero.mp
        have := hg.2
        omega
    · simp at hs

theorem inv_exec {f : D → R} {ds : List D} :
    ∀ (sched : List Action) (s s' : BatchState D R),
      Inv f ds s → exec f sched s = some s' → Inv f ds s'
  | [], s, s', h, he => by
    simp [exec] at he
    subst he
    exact h
  | a :: rest, s, s', h, he => by
    simp only [exec] at he
    cases hst : step f a s with
    | none => simp [hst] at he
    | some s1 =>
      simp [hst] at he
      exact inv_exec rest s1 s' (inv_step h hst) he

theorem inv_reachable {f : D → R} {ds : List D} {s : BatchState D R}
    (h : Reachable f ds s) : Inv f ds s := by
  obtain ⟨sched, he⟩ := h
  exact inv_exec sched _ _ (inv_init f ds) he

theorem exec_append (f : D → R) :
    ∀ (s₁ s₂ : List Action) (s : BatchState D R),
      exec f (s₁ ++ s₂) s = (exec f s₁ s).bind (exec f s₂)
  | [], s₂, s => by simp [exec]
  | a :: rest, s₂, s => by
    simp only [List.cons_append, exec]
    cases step f a s with
    | none => simp
    | some s1 => simp [exec_append f rest s₂ s1]

theorem inv_length {f : D → R} {ds : List D} {s : BatchState D R} (h : Inv f ds s) :
    s.r.length + s.buf.length + s.running.length + s.todo.length = ds.length := by
  have := h.perm.length_eq
  simp at this
  omega

theorem fuel_step {f : D → R} {a : Action} {s s' : BatchState D R}
    (hs : step f a s = some s') : s'.fuel + 1 = s.fuel := by
  cases a with
  | spawn k =>
    simp only [step] at hs
    split at hs
    · rename_i hpc
      split at hs
      · rename_i docker hk
        injection hs with hs
        subst hs
        have hl := length_eraseIdx_of_getElem? s.todo k docker hk
        simp only [BatchState.fuel, List.length_append, List.length_singleton]
        omega
      · simp at hs
    · simp at hs
  | endRange =>
    simp only [step] at hs
    split at hs
    · rename_i hg
      injection hs with hs
      subst hs
      simp [BatchState.fuel, hg.1, Pc.rank]
    · simp at hs
  | send k =>
    simp only [step] at hs
    split at hs
    · rename_i docker hk
      split at hs
      · injection hs with hs
        subst hs
        have hl := length_eraseIdx_of_getElem? s.running k docker hk
        simp only [BatchState.fuel]
        omega
      · simp at hs
    · simp at hs
  | done =>
    simp only [step] at hs
    split at hs
    · rename_i hg
      injection hs with hs
      subst hs
      have := hg.1
      simp only [BatchState.fuel]
      omega
    · simp at hs
  | wait =>
    simp only [step] at hs
    split at hs
    · rename_i hg
      injection hs with hs
      subst hs
      simp [BatchState.fuel, hg.1, Pc.rank]
    · simp at hs
  | recv =>
    simp only [step] at hs
    split at hs
    · rename_i hg
      split at hs
      · injection hs with hs
        subst hs
        have := hg.2
        simp only [BatchState.fuel]
        omega
      · simp at hs
    · simp at hs
  | ret =>
    simp only [step] at hs
    split at hs
    · rename_i hg
      injection hs with hs
      subst hs
      have h1 : s.count - s.i = 0 := by have := hg.2; omega
      simp [BatchState.fuel, hg.1, Pc.rank, h1]
    · simp at hs

theorem fuel_exec {f : D → R} :
    ∀ (sched : List Action) (s s' : BatchState D R),
      exec f sched s = some s' → s'.fuel + sched.length = s.fuel
  | [], s, s', he => by
    simp [exec] at he
    subst he
    simp
  | a :: rest, s, s', he => by
    simp only [exec] at he
    cases hst : step f a s with
    | none => simp [hst] at he
    | some s1 =>
      simp [hst] at he
      have h1 := fuel_step hst
      have h2 := fuel_exec rest s1 s' he
      simp only [List.length_cons]
      omega

theorem send_enabled {f : D → R} {ds : List D} {s : BatchState D R} (h : Inv f ds s)
    (k : Nat) (hk : k < s.running.length) : ∃ s', step f (.send k) s = some s' := by
  have hne : s.running ≠ [] := by
    intro hc; rw [hc] at hk; simp at hk
  have hclosed : s.closed = false := by
    cases hc : s.closed with
    | false => rfl
    | true => exact absurd (h.idle (Or.inr (h.closed_iff.mp hc))).1 hne
  have hlen := inv_length h
  have hroom : s.buf.length < s.cap := by
    rw [h.cap_eq, h.count_eq]; omega
  simp only [step, List.getElem?_eq_getElem hk]
  rw [if_pos ⟨hclosed, hroom⟩]
  exact ⟨_, rfl⟩

theorem done_enabled {f : D → R} {ds : List D} {s : BatchState D R} (h : Inv f ds s)
    (hf : 0 < s.finishing) : ∃ s', step f .done s = some s' := by
  have hwg : 0 < s.wg := by rw [h.wg_eq]; omega
  simp only [step]
  rw [if_pos ⟨hf, hwg⟩]
  exact ⟨_, rfl⟩

theorem recv_enabled {f : D → R} {ds : List D} {s : BatchState D R} (h : Inv f ds s)
    (hpc : s.pc = .draining) (hi : s.i < s.count) : ∃ s', step f .recv s = some s' := by
  have hlen := inv_length h
  have hidle := h.idle (Or.inl hpc)
  have htodo := h.todo_nil (by simp [hpc])
  have hi' : s.r.length < ds.length := by rw [← h.i_eq, ← h.count_eq]; exact hi
  simp [hidle.1, htodo] at hlen
  cases hb : s.buf with
  | nil => simp [hb] at hlen; omega
  | cons v rest =>
    simp only [step]
    rw [if_pos ⟨hpc, hi⟩]
    simp [hb]

theorem progress {f : D → R} {ds : List D} {s : BatchState D R} (h : Inv f ds s)
    (hpc : s.pc ≠ .returned) : ∃ a s', step f a s = some s' := by
  cases hp : s.pc with
  | returned => exact absurd hp hpc
  | ranging =>
    cases ht : s.todo with
    | nil =>
      have hsome : (step f .endRange s).isSome := by simp [step, hp, ht]
      exact ⟨.endRange, Option.isSome_iff_exists.mp hsome⟩
    | cons x rest =>
      have hsome : (step f (.spawn 0) s).isSome := by simp [step, hp, ht]
      exact ⟨.spawn 0, Option.isSome_iff_exists.mp hsome⟩
  | waiting =>
    by_cases hr : 0 < s.running.length
    · obtain ⟨s', hs'⟩ := send_enabled h 0 hr
      exact ⟨_, _, hs'⟩
    · by_cases hf : 0 < s.finishing
      · obtain ⟨s', hs'⟩ := done_enabled h hf
        exact ⟨_, _, hs'⟩
      · have hwg : s.wg = 0 := by rw [h.wg_eq]; omega
        have hsome : (step f .wait s).isSome := by simp [step, hp, hwg]
        exact ⟨.wait, Option.isSome_iff_exists.mp hsome⟩
  | draining =>
    by_cases hi : s.i < s.count
    · obtain ⟨s', hs'⟩ := recv_enabled h hp hi
      exact ⟨_, _, hs'⟩
    · have hsome : (step f .ret s).isSome := by simp [step, hp, hi]
      exact ⟨.ret, Option.isSome_iff_exists.mp hsome⟩

theorem completes_aux {f : D → R} {ds : List D} :
    ∀ (n : Nat) (s : BatchState D R), Inv f ds s → s.fuel ≤ n →
      ∃ more s', exec f more s = some s' ∧ s'.pc = .returned
  | 0, s, h, hn => by
    by_cases hpc : s.pc = .returned
    · exact ⟨[], s, rfl, hpc⟩
    · obtain ⟨a, s1, hs1⟩ := progress h hpc
      have := fuel_step hs1
      omega
  | n + 1, s, h, hn => by
    by_cases hpc : s.pc = .returned
    · exact ⟨[], s, rfl, hpc⟩
    · obtain ⟨a, s1, hs1⟩ := progress h hpc
      have hf := fuel_step hs1
      obtain ⟨more, s', he, hr⟩ := completes_aux n s1 (inv_step h hs1) (by omega)
      exact ⟨a :: more, s', by simp [exec, hs1, he], hr⟩

theorem completes {f : D → R} {ds : List D} {s : BatchState D R} (h : Inv f ds s) :
    ∃ more s', exec f more s = some s' ∧ s'.pc = .returned :=
  completes_aux s.fuel s h (Nat.le_refl _)

theorem returned_perm {f : D → R} {ds : List D} {s : BatchState D R} (h : Inv f ds s)
    (hpc : s.pc = .returned) : s.r.Perm (ds.map f) := by
  have hidle := h.idle (Or.inr hpc)
  have htodo := h.todo_nil (by simp [hpc])
  have hp := h.perm
  simpa [hidle.1, htodo, h.full hpc] using hp

theorem batchInterfaceResult_eq_some {Cfg : Type} {d : DockerGroup Cfg D} {f : D → R}
    {sched : List Action} {r : List R} :
    batchInterfaceResult d f sched = some r ↔
      ∃ s, exec f sched (BatchState.init d.clients) = some s ∧ s.pc = .returned ∧ s.r = r := by
  unfold batchInterfaceResult
  cases he : exec f sched (BatchState.init d.clients) with
  | none => simp
  | some s =>
    by_cases hpc : s.pc = .returned
    · simp [hpc]
    · simp [hpc]

theorem batchInterfaceResult_perm {Cfg : Type} {d : DockerGroup Cfg D} {f : D → R}
    {sched : List Action} {r : List R} (h : batchInterfaceResult d f sched = some r) :
    r.Perm (d.clients.map f) := by
  obtain ⟨s, he, hpc, hr⟩ := batchInterfaceResult_eq_some.mp h
  subst hr
  exact returned_perm (inv_exec sched _ _ (inv_init f d.clients) he) hpc

theorem batchInterfaceResult_extend {Cfg : Type} (d : DockerGroup Cfg D) (f : D → R)
    (sched : List Action) (s : BatchState D R)
    (he : exec f sched (BatchState.init d.clients) = some s) :
    ∃ more r, batchInterfaceResult d f (sched ++ more) = some r := by
  obtain ⟨more, s', he', hpc⟩ := completes (inv_exec sched _ _ (inv_init f d.clients) he)
  refine ⟨more, s'.r, batchInterfaceResult_eq_some.mpr ⟨s', ?_, hpc, rfl⟩⟩
  simp [exec_append, he, he']

theorem batchInterfaceResult_exists {Cfg : Type} (d : DockerGroup Cfg D) (f : D → R) :
    ∃ sched r, batchInterfaceResult d f sched = some r := by
  obtain ⟨more, r, h⟩ := batchInterfaceResult_extend d f [] _ rfl
  exact ⟨_, r, h⟩

theorem quiet_step {f : D → R} {a : Action} {s s' : BatchState D R}
    (hs : step f a s = some s') (hr : s.running = []) (ht : s.todo = []) :
    s'.running = [] ∧ s'.todo = [] ∧ s'.r ++ s'.buf = s.r ++ s.buf := by
  cases a with
  | spawn k =>
    simp only [step] at hs
    split at hs
    · simp [ht] at hs
    · simp at hs
  | endRange =>
    simp only [step] at hs
    split at hs
    · injection hs with hs
      subst hs
      exact ⟨hr, ht, rfl⟩
    · simp at hs
  | send k =>
    simp only [step] at hs
    simp [hr] at hs
  | done =>
    simp only [step] at hs
    split at hs
    · injection hs with hs
      subst hs
      exact ⟨hr, ht, rfl⟩
    · simp at hs
  | wait =>
    simp only [step] at hs
    split at hs
    · injection hs with hs
      subst hs
      exact ⟨hr, ht, rfl⟩
    · simp at hs
  | recv =>
    simp only [step] at hs
    split at hs
    · split at hs
      · rename_i v rest hb
        injection hs with hs
        subst hs
        refine ⟨hr, ht, ?_⟩
        simp [hb]
      · simp at hs
    · simp at hs
  | ret =>
    simp only [step] at hs
    split at hs
    · injection hs with hs
      subst hs
      exact ⟨hr, ht, rfl⟩
    · simp at hs

theorem quiet_exec {f : D → R} :
    ∀ (sched : List Action) (s s' : BatchState D R), exec f sched s = some s' →
      s.running = [] → s.todo = [] → s'.r ++ s'.buf = s.r ++ s.buf
  | [], s, s', he, _, _ => by
    simp [exec] at he
    subst he
    rfl
  | a :: rest, s, s', he, hr, ht => by
    simp only [exec] at he
    cases hst : step f a s with
    | none => simp [hst] at he
    | some s1 =>
      simp [hst] at he
      obtain ⟨h1, h2, h3⟩ := quiet_step hst hr ht
      rw [quiet_exec rest s1 s' he h1 h2, h3]

theorem exec_in_order (f : D → R) :
    ∀ (order : List D) (s : BatchState D R), s.pc = .ranging → s.todo.Perm order →
      s.running = [] → s.closed = false → s.buf.length + order.length ≤ s.cap →
      ∃ sched s', exec f sched s = some s' ∧ s'.todo = [] ∧ s'.running = [] ∧
        s'.r ++ s'.buf = s.r ++ s.buf ++ order.map f
  | [], s, _, hp, hr, _, _ => by
    refine ⟨[], s, rfl, ?_, hr, by simp⟩
    exact List.Perm.eq_nil hp
  | a :: order, s, hpc, hp, hr, hc, hcap => by
    have ha : a ∈ s.todo := hp.symm.subset (List.mem_cons_self a order)
    obtain ⟨k, hk⟩ := List.getElem?_of_mem ha
    have hrest : (s.todo.eraseIdx k).Perm order :=
      List.Perm.cons_inv ((perm_cons_eraseIdx s.todo k a hk).symm.trans hp)
    have hroom : s.buf.length < s.cap := by
      simp only [List.length_cons] at hcap
      omega
    have h1 : step f (.spawn k) s = some
        { s with todo := s.todo.eraseIdx k
                 wg := s.wg + 1
                 running := s.running ++ [a] } := by
      simp [step, hpc, hk]
    have h2 : step f (.send 0)
        { s with todo := s.todo.eraseIdx k
                 wg := s.wg + 1
                 running := s.running ++ [a] } = some
        { s with todo := s.todo.eraseIdx k
                 wg := s.wg + 1
                 running := []
                 buf := s.buf ++ [f a]
                 finishing := s.finishing + 1 } := by
      simp [step, hr, hc, hroom]
    obtain ⟨sched, s', he, ht', hr', hb'⟩ := exec_in_order f order
      { s with todo := s.todo.eraseIdx k
               wg := s.wg + 1
               running := []
               buf := s.buf ++ [f a]
               finishing := s.finishing + 1 }
      hpc hrest rfl hc (by
        simp only [List.length_cons] at hcap
        simp only [List.length_append, List.length_singleton]
        omega)
    refine ⟨.spawn k :: .send 0 :: sched, s', ?_, ht', hr', ?_⟩
    · simp [exec, h1, h2, he]
    · simpa using hb'

theorem exists_perm_map_eq {α β : Type} (f : α → β) :
    ∀ (r : List β) (l : List α), r.Perm (l.map f) → ∃ ord : List α, ord.Perm l ∧ ord.map f = r
  | [], l, h => by
    have hl : l = [] := by
      have := h.length_eq
      simp at this
      exact List.length_eq_zero.mp this.symm
    exact ⟨[], by simp [hl], rfl⟩
  | x :: r, l, h => by
    have hx : x ∈ l.map f := h.subset (List.mem_cons_self x r)
    obtain ⟨a, ha, hfa⟩ := List.mem_map.mp hx
    obtain ⟨k, hk⟩ := List.getElem?_of_mem ha
    have hp := perm_cons_eraseIdx l k a hk
    have h1 : (x :: r).Perm (f a :: (l.eraseIdx k).map f) := by
      have := h.trans (hp.map f)
      simpa using this
    rw [hfa] at h1
    obtain ⟨o, ho, hm⟩ := exists_perm_map_eq f r (l.eraseIdx k) (List.Perm.cons_inv h1)
    exact ⟨a :: o, (List.Perm.cons a ho).trans hp.symm, by simp [hm, hfa]⟩

theorem batchInterfaceResult_any_order {Cfg : Type} (d : DockerGroup Cfg D) (f : D → R)
    (order : List D) (ho : order.Perm d.clients) :
    ∃ sched, batchInterfaceResult d f sched = some (order.map f) := by
  obtain ⟨s₁, s1, he1, ht1, hr1, hb1⟩ := exec_in_order f order (BatchState.init d.clients)
    rfl ho.symm rfl rfl (by simp [BatchState.init, ho.length_eq])
  have hinv := inv_exec s₁ _ _ (inv_init f d.clients) he1
  obtain ⟨s₂, s2, he2, hpc2⟩ := completes hinv
  have hinv2 := inv_exec s₂ _ _ hinv he2
  have hq := quiet_exec s₂ s1 s2 he2 hr1 ht1
  refine ⟨s₁ ++ s₂, batchInterfaceResult_eq_some.mpr ⟨s2, ?_, hpc2, ?_⟩⟩
  · simp [exec_append, he1, he2]
  · rw [hinv2.full hpc2, hb1] at hq
    simpa [BatchState.init] using hq

/-- C1. For every group and every task function `f`, `batchInterfaceResult` returns
(some run returns, every run that has started can be continued up to the return, and no
run is longer than `4 * N + 3` steps), and whatever it returns is a permutation of the
values `f client` over the `N` clients of the group, hence of length `N`: it is
`ord.map f` for an order `ord` of the clients, and every such order is the result
of some run. -/
theorem batchInterfaceResult_permutation {Cfg : Type} (d : DockerGroup Cfg D) (f : D → R) :
    (∃ sched r, batchInterfaceResult d f sched = some r) ∧
    (∀ sched s, exec f sched (BatchState.init d.clients) = some s →
      sched.length ≤ 4 * d.clients.length + 3 ∧
      ∃ more r, batchInterfaceResult d f (sched ++ more) = some r) ∧
    (∀ sched r, batchInterfaceResult d f sched = some r →
      r.Perm (d.clients.map f) ∧ r.length = d.clients.length ∧
      ∃ ord : List D, ord.Perm d.clients ∧ r = ord.map f) ∧
    (∀ ord : List D, ord.Perm d.clients →
      ∃ sched, batchInterfaceResult d f sched = some (ord.map f)) := by
  refine ⟨batchInterfaceResult_exists d f, ?_, ?_, batchInterfaceResult_any_order d f⟩
  · intro sched s he
    refine ⟨?_, batchInterfaceResult_extend d f sched s he⟩
    have := fuel_exec sched _ s he
    simp [BatchState.fuel, BatchState.init, Pc.rank] at this
    omega
  · intro sched r h
    have hp := batchInterfaceResult_perm h
    refine ⟨hp, by simpa using hp.length_eq, ?_⟩
    obtain ⟨ord, ho, hm⟩ := exists_perm_map_eq f r d.clients hp
    exact ⟨ord, ho, hm.symm⟩

/-- C1 at the group `A, B, C`: under a schedule that shuffles the goroutines the call
returns the three values, each once. -/
theorem batchInterfaceResult_permutation_witness :
    batchInterfaceResult groupABC (fun docker => docker ++ "!") shuffledSchedule
        = some ["B!", "C!", "A!"] ∧
      ["B!", "C!", "A!"].Perm (groupABC.clients.map (fun docker => docker ++ "!")) ∧
      ["B!", "C!", "A!"].length = groupABC.clients.length :=
  ⟨by decide,
    ((batchInterfaceResult_permutation groupABC (fun docker => docker ++ "!")).2.2.1
      shuffledSchedule _ (by decide)).1,
    ((batchInterfaceResult_permutation groupABC (fun docker => docker ++ "!")).2.2.1
      shuffledSchedule _ (by decide)).2.1⟩

/-- C9. In every reachable state of a call on `N` clients: the channel has capacity `N`
and holds at most `N` values; the wait counter is the number of started goroutines that
have not run `Done`; every goroutine that has not sent can send at once (its send does
not block). Once all `N` goroutines were started and the wait counter is zero, the
values received and buffered are `N` together, so the buffer holds exactly `N` values
until the first receive; in the receive loop `i` values were received and `N - i` are
buffered, so each receive finds a value; and when the channel is closed it is empty and
`N` values were received. -/
theorem reachable_channel_bounds (f : D → R) (ds : List D) (s : BatchState D R)
    (h : Reachable f ds s) :
    s.cap = ds.length ∧ s.buf.length ≤ ds.length ∧
    s.wg = (s.running.length : Int) + (s.finishing : Int) ∧
    (∀ k, k < s.running.length → ∃ s', step f (.send k) s = some s') ∧
    (s.todo = [] → s.wg = 0 →
      s.r.length + s.buf.length = ds.length ∧
      (s.pc = .ranging ∨ s.pc = .waiting → s.buf.length = ds.length)) ∧
    (s.pc = .draining → s.i + s.buf.length = ds.length ∧
      (s.i < s.count → ∃ s', step f .recv s = some s')) ∧
    (s.closed = true → s.buf = [] ∧ s.r.length = ds.length) := by
  have hinv := inv_reachable h
  have hlen := inv_length hinv
  refine ⟨by rw [hinv.cap_eq, hinv.count_eq], by omega, hinv.wg_eq,
    fun k hk => send_enabled hinv k hk, ?_, ?_, ?_⟩
  · intro ht hwg
    have hz : (s.running.length : Int) + (s.finishing : Int) = 0 := by
      rw [← hinv.wg_eq]; exact hwg
    have hrun : s.running.length = 0 := by omega
    simp only [ht, List.length_nil] at hlen
    refine ⟨by omega, fun hpc => ?_⟩
    have hr := hinv.r_nil hpc
    simp only [hr, List.length_nil] at hlen
    omega
  · intro hpc
    have hidle := hinv.idle (Or.inl hpc)
    have htodo := hinv.todo_nil (by simp [hpc])
    simp only [hidle.1, htodo, List.length_nil] at hlen
    refine ⟨by rw [hinv.i_eq]; omega, fun hi => recv_enabled hinv hpc hi⟩
  · intro hc
    have hpc := hinv.closed_iff.mp hc
    have hidle := hinv.idle (Or.inr hpc)
    have htodo := hinv.todo_nil (by simp [hpc])
    have hb := hinv.full hpc
    simp only [hidle.1, htodo, hb, List.length_nil] at hlen
    exact ⟨hb, by omega⟩

/-- C9 at the clients `A`, `B`, `C`: in the state reached by `midSchedule` one value is
buffered and the goroutine still running can send; in the state reached just before
`Wait` returns the buffer holds the three values. -/
theorem reachable_channel_bounds_witness :
    exec (fun docker => docker ++ "!") midSchedule (BatchState.init ["A", "B", "C"])
        = some midState ∧
      midState.buf.length ≤ 3 ∧
      (∃ s', step (fun docker => docker ++ "!") (.send 0) midState = some s') ∧
      exec (fun docker => docker ++ "!") (shuffledSchedule.take 10)
        (BatchState.init ["A", "B", "C"]) = some barrierState ∧
      barrierState.buf.length = 3 :=
  ⟨rfl,
    (reachable_channel_bounds (fun docker => docker ++ "!") ["A", "B", "C"] midState
      ⟨midSchedule, rfl⟩).2.1,
    (reachable_channel_bounds (fun docker => docker ++ "!") ["A", "B", "C"] midState
      ⟨midSchedule, rfl⟩).2.2.2.1 0 (by decide),
    rfl,
    ((reachable_channel_bounds (fun docker => docker ++ "!") ["A", "B", "C"] barrierState
      ⟨shuffledSchedule.take 10, rfl⟩).2.2.2.2.1 rfl rfl).2 (Or.inr rfl)⟩

end Dispatch

/-! ## The aggregation loops -/

section Aggregation

variable {Cfg D P Rev DF W E C I : Type}

theorem batchErrorResult_loop_eq :
    ∀ (rs : List (Dyn E C I)) (acc : List E),
      batchErrorResult.loop rs acc =
        if ∀ e ∈ rs, e.asErrorResult.isSome = true then some (acc ++ rs.filterMap Dyn.err)
        else none
  | [], acc => by simp [batchErrorResult.loop]
  | e :: rest, acc => by
    cases e with
    | ofErrorResult p =>
      cases hp : p.err with
      | none =>
        simp [batchErrorResult.loop, Dyn.asErrorResult, Dyn.err, hp,
          batchErrorResult_loop_eq rest acc]
      | some err =>
        simp [batchErrorResult.loop, Dyn.asErrorResult, Dyn.err, hp,
          batchErrorResult_loop_eq rest (acc ++ [err])]
    | ofListContainersResult p => simp [batchErrorResult.loop, Dyn.asErrorResult]
    | ofListImagesResult p => simp [batchErrorResult.loop, Dyn.asErrorResult]

theorem listContainers_loop_eq :
    ∀ (rs : List (Dyn E C I)) (vs : List C) (es : List E),
      ListContainers.loop rs (vs, es) =
        if ∀ e ∈ rs, e.asListContainersResult.isSome = true then
          some (vs ++ rs.flatMap Dyn.containers, es ++ rs.filterMap Dyn.err)
        else none
  | [], vs, es => by simp [ListContainers.loop]
  | e :: rest, vs, es => by
    cases e with
    | ofListContainersResult p =>
      cases hp : p.err with
      | none =>
        simp [ListContainers.loop, Dyn.asListContainersResult, Dyn.err, Dyn.containers, hp,
          listContainers_loop_eq rest (vs ++ p.containers) es]
      | some err =>
        simp [ListContainers.loop, Dyn.asListContainersResult, Dyn.err, Dyn.containers, hp,
          listContainers_loop_eq rest (vs ++ p.containers) (es ++ [err])]
    | ofErrorResult p => simp [ListContainers.loop, Dyn.asListContainersResult]
    | ofListImagesResult p => simp [ListContainers.loop, Dyn.asListContainersResult]

theorem listImages_loop_eq :
    ∀ (rs : List (Dyn E C I)) (vs : List I) (es : List E),
      ListImages.loop rs (vs, es) =
        if ∀ e ∈ rs, e.asListImagesResult.isSome = true then
          some (vs ++ rs.flatMap Dyn.images, es ++ rs.filterMap Dyn.err)
        else none
  | [], vs, es => by simp [ListImages.loop]
  | e :: rest, vs, es => by
    cases e with
    | ofListImagesResult p =>
      cases hp : p.err with
      | none =>
        simp [ListImages.loop, Dyn.asListImagesResult, Dyn.err, Dyn.images, hp,
          listImages_loop_eq rest (vs ++ p.images) es]
      | some err =>
        simp [ListImages.loop, Dyn.asListImagesResult, Dyn.err, Dyn.images, hp,
          listImages_loop_eq rest (vs ++ p.images) (es ++ [err])]
    | ofErrorResult p => simp [ListImages.loop, Dyn.asListImagesResult]
    | ofListContainersResult p => simp [ListImages.loop, Dyn.asListImagesResult]

theorem errorOp_invoke_eq (api : DockerOps D P Rev DF W E C I) (d : DockerGroup Cfg D)
    (op : ErrorOp P Rev DF W) (sched : List Action) :
    op.invoke api d sched = batchErrorResult d (op.task api) sched := by
  cases op <;> rfl

theorem errorOp_task_eq (api : DockerOps D P Rev DF W E C I) (op : ErrorOp P Rev DF W)
    (docker : D) : op.task api docker = .ofErrorResult { err := op.call api docker } := by
  cases op <;> rfl

theorem listContainers_task_eq (api : DockerOps D P Rev DF W E C I) (p : P) (docker : D) :
    ListContainers.task api p docker = .ofListContainersResult
      { containers := (api.ListContainers docker p).1, err := (api.ListContainers docker p).2 } :=
  rfl

theorem listImages_task_eq (api : DockerOps D P Rev DF W E C I) (p : P) (docker : D) :
    ListImages.task api p docker = .ofListImagesResult
      { images := (api.ListImages docker p).1, err := (api.ListImages docker p).2 } :=
  rfl

theorem errorOp_collected (api : DockerOps D P Rev DF W E C I) (op : ErrorOp P Rev DF W)
    (ord : List D) :
    (∀ e ∈ ord.map (op.task api), e.asErrorResult.isSome = true) ∧
      (ord.map (op.task api)).filterMap Dyn.err = ord.filterMap (op.call api) := by
  constructor
  · intro e he
    obtain ⟨c, _, hc⟩ := List.mem_map.mp he
    rw [← hc, errorOp_task_eq]
    rfl
  · rw [List.filterMap_map]
    congr 1
    funext c
    simp [errorOp_task_eq, Dyn.err]

theorem listContainers_collected (api : DockerOps D P Rev DF W E C I) (p : P) (ord : List D) :
    (∀ e ∈ ord.map (ListContainers.task api p), e.asListContainersResult.isSome = true) ∧
      (ord.map (ListContainers.task api p)).flatMap Dyn.containers
        = ord.flatMap (fun c => (api.ListContainers c p).1) ∧
      (ord.map (ListContainers.task api p)).filterMap Dyn.err
        = ord.filterMap (fun c => (api.ListContainers c p).2) := by
  refine ⟨?_, ?_, ?_⟩
  · intro e he
    obtain ⟨c, _, hc⟩ := List.mem_map.mp he
    rw [← hc, listContainers_task_eq]
    rfl
  · induction ord with
    | nil => rfl
    | cons c rest ih =>
      simp only [List.map_cons, List.flatMap_cons, ih]
      rfl
  · rw [List.filterMap_map]
    rfl

theorem listImages_collected (api : DockerOps D P Rev DF W E C I) (p : P) (ord : List D) :
    (∀ e ∈ ord.map (ListImages.task api p), e.asListImagesResult.isSome = true) ∧
      (ord.map (ListImages.task api p)).flatMap Dyn.images
        = ord.flatMap (fun c => (api.ListImages c p).1) ∧
      (ord.map (ListImages.task api p)).filterMap Dyn.err
        = ord.filterMap (fun c => (api.ListImages c p).2) := by
  refine ⟨?_, ?_, ?_⟩
  · intro e he
    obtain ⟨c, _, hc⟩ := List.mem_map.mp he
    rw [← hc, listImages_task_eq]
    rfl
  · induction ord with
    | nil => rfl
    | cons c rest ih =>
      simp only [List.map_cons, List.flatMap_cons, ih]
      rfl
  · rw [List.filterMap_map]
    rfl

/-- What an error-only operation does under a schedule, in terms of the order in which
the results were collected. -/
theorem errorOp_cases (api : DockerOps D P Rev DF W E C I) (d : DockerGroup Cfg D)
    (op : ErrorOp P Rev DF W) (sched : List Action) :
    (batchInterfaceResult d (op.task api) sched = none ∧
      op.invoke api d sched = .incomplete) ∨
    ∃ ord : List D, ord.Perm d.clients ∧
      batchInterfaceResult d (op.task api) sched = some (ord.map (op.task api)) ∧
      op.invoke api d sched = .returned (ord.filterMap (op.call api)) := by
  rw [errorOp_invoke_eq]
  unfold batchErrorResult
  cases h : batchInterfaceResult d (op.task api) sched with
  | none => exact Or.inl ⟨rfl, rfl⟩
  | some rs =>
    right
    obtain ⟨ord, ho, hm⟩ := exists_perm_map_eq (op.task api) rs d.clients
      (batchInterfaceResult_perm h)
    subst hm
    obtain ⟨h1, h2⟩ := errorOp_collected api op ord
    refine ⟨ord, ho, rfl, ?_⟩
    simp only [batchErrorResult_loop_eq, if_pos h1, h2, List.nil_append]

/-- What `ListContainers` does under a schedule. -/
theorem listContainers_cases (api : DockerOps D P Rev DF W E C I) (d : DockerGroup Cfg D)
    (p : P) (sched : List Action) :
    (batchInterfaceResult d (ListContainers.task api p) sched = none ∧
      ListContainers api d p sched = .incomplete) ∨
    ∃ ord : List D, ord.Perm d.clients ∧
      batchInterfaceResult d (ListContainers.task api p) sched
        = some (ord.map (ListContainers.task api p)) ∧
      ListContainers api d p sched = .returned
        (ord.flatMap (fun c => (api.ListContainers c p).1),
         ord.filterMap (fun c => (api.ListContainers c p).2)) := by
  unfold ListContainers
  cases h : batchInterfaceResult d (ListContainers.task api p) sched with
  | none => exact Or.inl ⟨rfl, rfl⟩
  | some rs =>
    right
    obtain ⟨ord, ho, hm⟩ := exists_perm_map_eq (ListContainers.task api p) rs d.clients
      (batchInterfaceResult_perm h)
    subst hm
    obtain ⟨h1, h2, h3⟩ := listContainers_collected api p ord
    refine ⟨ord, ho, rfl, ?_⟩
    simp only [listContainers_loop_eq, if_pos h1, h2, h3, List.nil_append]

/-- What `ListImages` does under a schedule. -/
theorem listImages_cases (api : DockerOps D P Rev DF W E C I) (d : DockerGroup Cfg D)
    (p : P) (sched : List Action) :
    (batchInterfaceResult d (ListImages.task api p) sched = none ∧
      ListImages api d p sched = .incomplete) ∨
    ∃ ord : List D, ord.Perm d.clients ∧
      batchInterfaceResult d (ListImages.task api p) sched
        = some (ord.map (ListImages.task api p)) ∧
      ListImages api d p sched = .returned
        (ord.flatMap (fun c => (api.ListImages c p).1),
         ord.filterMap (fun c => (api.ListImages c p).2)) := by
  unfold ListImages
  cases h : batchInterfaceResult d (ListImages.task api p) sched with
  | none => exact Or.inl ⟨rfl, rfl⟩
  | some rs =>
    right
    obtain ⟨ord, ho, hm⟩ := exists_perm_map_eq (ListImages.task api p) rs d.clients
      (batchInterfaceResult_perm h)
    subst hm
    obtain ⟨h1, h2, h3⟩ := listImages_collected api p ord
    refine ⟨ord, ho, rfl, ?_⟩
    simp only [listImages_loop_eq, if_pos h1, h2, h3, List.nil_append]

theorem length_filterMap_eq_countP {α β : Type} (g : α → Option β) :
    ∀ l : List α, (l.filterMap g).length = l.countP (fun c => (g c).isSome)
  | [] => rfl
  | c :: rest => by
    cases hc : g c with
    | none => simp [List.filterMap_cons, hc, length_filterMap_eq_countP g rest]
    | some b => simp [List.filterMap_cons, hc, length_filterMap_eq_countP g rest]

theorem filterMap_eq_nil_iff_all_none {α β : Type} (g : α → Option β) :
    ∀ l : List α, l.filterMap g = [] ↔ ∀ c ∈ l, g c = none
  | [] => by simp
  | c :: rest => by
    cases hc : g c with
    | none => simp [List.filterMap_cons, hc, filterMap_eq_nil_iff_all_none g rest]
    | some b => simp [List.filterMap_cons, hc]

theorem length_flatMap_eq_sum {α β : Type} (g : α → List β) :
    ∀ l : List α, (l.flatMap g).length = (l.map (fun c => (g c).length)).sum
  | [] => rfl
  | c :: rest => by
    simp [List.flatMap_cons, length_flatMap_eq_sum g rest]

theorem flatMap_filter_of_nil {α β : Type} (g : α → List β) (keep : α → Bool) :
    ∀ l : List α, (∀ c ∈ l, keep c = false → g c = []) →
      (l.filter keep).flatMap g = l.flatMap g
  | [], _ => rfl
  | c :: rest, h => by
    have ih := flatMap_filter_of_nil g keep rest (fun x hx => h x (List.mem_cons_of_mem c hx))
    cases hk : keep c with
    | true => simp [List.filter_cons, hk, List.flatMap_cons, ih]
    | false =>
      have := h c (List.mem_cons_self c rest) hk
      simp [List.filter_cons, hk, List.flatMap_cons, ih, this]

theorem errorOp_returns (api : DockerOps D P Rev DF W E C I) (d : DockerGroup Cfg D)
    (op : ErrorOp P Rev DF W) : ∃ sched errs, op.invoke api d sched = .returned errs := by
  obtain ⟨sched, r, h⟩ := batchInterfaceResult_exists d (op.task api)
  rcases errorOp_cases api d op sched with ⟨hn, _⟩ | ⟨ord, _, _, hr⟩
  · rw [h] at hn; cases hn
  · exact ⟨sched, _, hr⟩

theorem listContainers_returns (api : DockerOps D P Rev DF W E C I) (d : DockerGroup Cfg D)
    (p : P) : ∃ sched out, ListContainers api d p sched = .returned out := by
  obtain ⟨sched, r, h⟩ := batchInterfaceResult_exists d (ListContainers.task api p)
  rcases listContainers_cases api d p sched with ⟨hn, _⟩ | ⟨ord, _, _, hr⟩
  · rw [h] at hn; cases hn
  · exact ⟨sched, _, hr⟩

theorem listImages_returns (api : DockerOps D P Rev DF W E C I) (d : DockerGroup Cfg D)
    (p : P) : ∃ sched out, ListImages api d p sched = .returned out := by
  obtain ⟨sched, r, h⟩ := batchInterfaceResult_exists d (ListImages.task api p)
  rcases listImages_cases api d p sched with ⟨hn, _⟩ | ⟨ord, _, _, hr⟩
  · rw [h] at hn; cases hn
  · exact ⟨sched, _, hr⟩

/-- The collection order behind a list returned by an error-only operation. -/
theorem errorOp_returned_inv (api : DockerOps D P Rev DF W E C I) (d : DockerGroup Cfg D)
    (op : ErrorOp P Rev DF W) (sched : List Action) (errs : List E)
    (h : op.invoke api d sched = .returned errs) :
    ∃ ord : List D, ord.Perm d.clients ∧
      batchInterfaceResult d (op.task api) sched = some (ord.map (op.task api)) ∧
      errs = ord.filterMap (op.call api) := by
  rcases errorOp_cases api d op sched with ⟨_, hi⟩ | ⟨ord, ho, hb, hr⟩
  · rw [hi] at h; cases h
  · rw [hr] at h
    injection h with h
    exact ⟨ord, ho, hb, h.symm⟩

/-- The collection order behind the lists returned by `ListContainers`. -/
theorem listContainers_returned_inv (api : DockerOps D P Rev DF W E C I)
    (d : DockerGroup Cfg D) (p : P) (sched : List Action) (vals : List C) (errs : List E)
    (h : ListContainers api d p sched = .returned (vals, errs)) :
    ∃ ord : List D, ord.Perm d.clients ∧
      batchInterfaceResult d (ListContainers.task api p) sched
        = some (ord.map (ListContainers.task api p)) ∧
      vals = ord.flatMap (fun c => (api.ListContainers c p).1) ∧
      errs = ord.filterMap (fun c => (api.ListContainers c p).2) := by
  rcases listContainers_cases api d p sched with ⟨_, hi⟩ | ⟨ord, ho, hb, hr⟩
  · rw [hi] at h; cases h
  · rw [hr] at h
    injection h with h
    injection h with hv he
    exact ⟨ord, ho, hb, hv.symm, he.symm⟩

/-- The collection order behind the lists returned by `ListImages`. -/
theorem listImages_returned_inv (api : DockerOps D P Rev DF W E C I)
    (d : DockerGroup Cfg D) (p : P) (sched : List Action) (vals : List I) (errs : List E)
    (h : ListImages api d p sched = .returned (vals, errs)) :
    ∃ ord : List D, ord.Perm d.clients ∧
      batchInterfaceResult d (ListImages.task api p) sched
        = some (ord.map (ListImages.task api p)) ∧
      vals = ord.flatMap (fun c => (api.ListImages c p).1) ∧
      errs = ord.filterMap (fun c => (api.ListImages c p).2) := by
  rcases listImages_cases api d p sched with ⟨_, hi⟩ | ⟨ord, ho, hb, hr⟩
  · rw [hi] at h; cases h
  · rw [hr] at h
    injection h with h
    injection h with hv he
    exact ⟨ord, ho, hb, hv.symm, he.symm⟩

/-- Every started run of an error-only operation extends to one on which it returns. -/
theorem errorOp_extends (api : DockerOps D P Rev DF W E C I) (d : DockerGroup Cfg D)
    (op : ErrorOp P Rev DF W) (sched : List Action) (s : BatchState D (Dyn E C I))
    (he : exec (op.task api) sched (BatchState.init d.clients) = some s) :
    ∃ more errs, op.invoke api d (sched ++ more) = .returned errs := by
  obtain ⟨more, r, h⟩ := batchInterfaceResult_extend d (op.task api) sched s he
  rcases errorOp_cases api d op (sched ++ more) with ⟨hn, _⟩ | ⟨ord, _, _, ho⟩
  · rw [h] at hn; cases hn
  · exact ⟨more, _, ho⟩

/-- Every started run of `ListContainers` extends to one on which it returns. -/
theorem listContainers_extends (api : DockerOps D P Rev DF W E C I) (d : DockerGroup Cfg D)
    (p : P) (sched : List Action) (s : BatchState D (Dyn E C I))
    (he : exec (ListContainers.task api p) sched (BatchState.init d.clients) = some s) :
    ∃ more vals errs, ListContainers api d p (sched ++ more) = .returned (vals, errs) := by
  obtain ⟨more, r, h⟩ := batchInterfaceResult_extend d (ListContainers.task api p) sched s he
  rcases listContainers_cases api d p (sched ++ more) with ⟨hn, _⟩ | ⟨ord, _, _, ho⟩
  · rw [h] at hn; cases hn
  · exact ⟨more, _, _, ho⟩

/-- Every started run of `ListImages` extends to one on which it returns. -/
theorem listImages_extends (api : DockerOps D P Rev DF W E C I) (d : DockerGroup Cfg D)
    (p : P) (sched : List Action) (s : BatchState D (Dyn E C I))
    (he : exec (ListImages.task api p) sched (BatchState.init d.clients) = some s) :
    ∃ more vals errs, ListImages api d p (sched ++ more) = .returned (vals, errs) := by
  obtain ⟨more, r, h⟩ := batchInterfaceResult_extend d (ListImages.task api p) sched s he
  rcases listImages_cases api d p (sched ++ more) with ⟨hn, _⟩ | ⟨ord, _, _, ho⟩
  · rw [h] at hn; cases hn
  · exact ⟨more, _, _, ho⟩

/-- Every order of the clients is the collection order of a returning run of an
error-only operation. -/
theorem errorOp_any_order (api : DockerOps D P Rev DF W E C I) (d : DockerGroup Cfg D)
    (op : ErrorOp P Rev DF W) (ord : List D) (ho : ord.Perm d.clients) :
    ∃ sched, op.invoke api d sched = .returned (ord.filterMap (op.call api)) := by
  obtain ⟨sched, h⟩ := batchInterfaceResult_any_order d (op.task api) ord ho
  obtain ⟨h1, h2⟩ := errorOp_collected api op ord
  refine ⟨sched, ?_⟩
  rw [errorOp_invoke_eq]
  unfold batchErrorResult
  simp only [h, batchErrorResult_loop_eq, if_pos h1, h2, List.nil_append]

/-- Every order of the clients is the collection order of a returning run of
`ListContainers`. -/
theorem listContainers_any_order (api : DockerOps D P Rev DF W E C I)
    (d : DockerGroup Cfg D) (p : P) (ord : List D) (ho : ord.Perm d.clients) :
    ∃ sched, ListContainers api d p sched = .returned
      (ord.flatMap (fun c => (api.ListContainers c p).1),
       ord.filterMap (fun c => (api.ListContainers c p).2)) := by
  obtain ⟨sched, h⟩ := batchInterfaceResult_any_order d (ListContainers.task api p) ord ho
  obtain ⟨h1, h2, h3⟩ := listContainers_collected api p ord
  refine ⟨sched, ?_⟩
  unfold ListContainers
  simp only [h, listContainers_loop_eq, if_pos h1, h2, h3, List.nil_append]

/-- Every order of the clients is the collection order of a returning run of
`ListImages`. -/
theorem listImages_any_order (api : DockerOps D P Rev DF W E C I)
    (d : DockerGroup Cfg D) (p : P) (ord : List D) (ho : ord.Perm d.clients) :
    ∃ sched, ListImages api d p sched = .returned
      (ord.flatMap (fun c => (api.ListImages c p).1),
       ord.filterMap (fun c => (api.ListImages c p).2)) := by
  obtain ⟨sched, h⟩ := batchInterfaceResult_any_order d (ListImages.task api p) ord ho
  obtain ⟨h1, h2, h3⟩ := listImages_collected api p ord
  refine ⟨sched, ?_⟩
  unfold ListImages
  simp only [h, listImages_loop_eq, if_pos h1, h2, h3, List.nil_append]

/-- C2. Each of `Deploy`, `Clean`, `BuildImage` and `Run` returns its error list: some
run returns, every run that has started can be continued to one on which the operation
returns, and every order of the group's clients is the collection order of a returning
run, which returns the non-nil errors of the per-endpoint calls in that order. Whenever
the operation returns a list `errs`, there is such an order `ord`, the order in which the
results were collected, with `errs` the list of the non-nil errors of the per-endpoint
calls in that order. So `errs` holds each failing endpoint's error once and nothing else,
its length is the number `K` of failing endpoints, and it is empty iff every endpoint
succeeded. -/
theorem errorOnly_returns_the_nonNil_errors (api : DockerOps D P Rev DF W E C I)
    (d : DockerGroup Cfg D) (op : ErrorOp P Rev DF W) :
    (∃ sched errs, op.invoke api d sched = .returned errs) ∧
    (∀ sched s, exec (op.task api) sched (BatchState.init d.clients) = some s →
      ∃ more errs, op.invoke api d (sched ++ more) = .returned errs) ∧
    (∀ ord : List D, ord.Perm d.clients →
      ∃ sched, op.invoke api d sched = .returned (ord.filterMap (op.call api))) ∧
    (∀ sched errs, op.invoke api d sched = .returned errs →
      (∃ ord : List D, ord.Perm d.clients ∧
        batchInterfaceResult d (op.task api) sched = some (ord.map (op.task api)) ∧
        errs = ord.filterMap (op.call api)) ∧
      errs.Perm (d.clients.filterMap (op.call api)) ∧
      errs.length = d.clients.countP (fun c => (op.call api c).isSome) ∧
      (errs = [] ↔ ∀ c ∈ d.clients, op.call api c = none)) := by
  refine ⟨errorOp_returns api d op, errorOp_extends api d op, errorOp_any_order api d op,
    ?_⟩
  intro sched errs h
  obtain ⟨ord, ho, hb, he⟩ := errorOp_returned_inv api d op sched errs h
  subst he
  refine ⟨⟨ord, ho, hb, rfl⟩, ho.filterMap _, ?_, ?_⟩
  · rw [length_filterMap_eq_countP]
    exact ho.countP_eq _
  · rw [filterMap_eq_nil_iff_all_none]
    exact ⟨fun hall c hc => hall c (ho.mem_iff.mpr hc),
      fun hall c hc => hall c (ho.mem_iff.mp hc)⟩

/-- C2 at the group `A, B, C` with `B` failing on `disk full`: each of `Deploy`, `Clean`,
`BuildImage` and `Run` returns a list of length 1 holding `disk full`, and a started run
of `Clean` can be continued to its return. -/
theorem errorOnly_returns_the_nonNil_errors_witness :
    Deploy diskFullOps groupABC () () () () true shuffledSchedule = .returned ["disk full"] ∧
      Clean diskFullOps groupABC () shuffledSchedule = .returned ["disk full"] ∧
      BuildImage diskFullOps groupABC () () () () (seqSchedule 3) = .returned ["disk full"] ∧
      Run diskFullOps groupABC () () (seqSchedule 3) = .returned ["disk full"] ∧
      ["disk full"].length
        = groupABC.clients.countP (fun c => (diskFullOps.Deploy c () () () () true).isSome) ∧
      ["disk full"].length = 1 ∧
      (∃ more errs, Clean diskFullOps groupABC () (midSchedule ++ more) = .returned errs) ∧
      (∃ sched, Run diskFullOps groupABC () () sched = .returned ["disk full"]) :=
  ⟨by decide, by decide, by decide, by decide,
    ((errorOnly_returns_the_nonNil_errors diskFullOps groupABC
      (.deploy () () () () true)).2.2.2 shuffledSchedule ["disk full"] (by decide)).2.2.1,
    rfl,
    (errorOnly_returns_the_nonNil_errors diskFullOps groupABC (.clean ())).2.1
      midSchedule _ rfl,
    (errorOnly_returns_the_nonNil_errors diskFullOps groupABC (.run () ())).2.2.1
      ["C", "B", "A"] (by decide)⟩

/-- C4. `ListContainers` and `ListImages` return their two lists: every run that has
started (the empty run included) can be continued to one on which the operation returns,
and every order of the group's clients is the collection order of a returning run.
Whenever the operation returns, there is an order `ord` of the group's clients, the
order in which their results were collected, such that the value list returned is the
concatenation in that order of every endpoint's value list, the failing endpoints
included, and the error list is the list of the non-nil errors in the same order; so
every value of every endpoint is in the value list returned, whether or not that
endpoint returned an error. -/
theorem list_operations_append_unconditionally (api : DockerOps D P Rev DF W E C I)
    (d : DockerGroup Cfg D) (p : P) :
    ((∀ sched s,
        exec (ListContainers.task api p) sched (BatchState.init d.clients) = some s →
        ∃ more vals errs, ListContainers api d p (sched ++ more) = .returned (vals, errs)) ∧
      (∀ ord : List D, ord.Perm d.clients →
        ∃ sched, ListContainers api d p sched = .returned
          (ord.flatMap (fun c => (api.ListContainers c p).1),
           ord.filterMap (fun c => (api.ListContainers c p).2))) ∧
      (∀ sched vals errs, ListContainers api d p sched = .returned (vals, errs) →
        (∃ ord : List D, ord.Perm d.clients ∧
          batchInterfaceResult d (ListContainers.task api p) sched
            = some (ord.map (ListContainers.task api p)) ∧
          vals = ord.flatMap (fun c => (api.ListContainers c p).1) ∧
          errs = ord.filterMap (fun c => (api.ListContainers c p).2)) ∧
        ∀ c ∈ d.clients, ∀ v ∈ (api.ListContainers c p).1, v ∈ vals)) ∧
    ((∀ sched s, exec (ListImages.task api p) sched (BatchState.init d.clients) = some s →
        ∃ more vals errs, ListImages api d p (sched ++ more) = .returned (vals, errs)) ∧
      (∀ ord : List D, ord.Perm d.clients →
        ∃ sched, ListImages api d p sched = .returned
          (ord.flatMap (fun c => (api.ListImages c p).1),
           ord.filterMap (fun c => (api.ListImages c p).2))) ∧
      (∀ sched vals errs, ListImages api d p sched = .returned (vals, errs) →
        (∃ ord : List D, ord.Perm d.clients ∧
          batchInterfaceResult d (ListImages.task api p) sched
            = some (ord.map (ListImages.task api p)) ∧
          vals = ord.flatMap (fun c => (api.ListImages c p).1) ∧
          errs = ord.filterMap (fun c => (api.ListImages c p).2)) ∧
        ∀ c ∈ d.clients, ∀ v ∈ (api.ListImages c p).1, v ∈ vals)) := by
  refine ⟨⟨listContainers_extends api d p, listContainers_any_order api d p, ?_⟩,
    ⟨listImages_extends api d p, listImages_any_order api d p, ?_⟩⟩
  · intro sched vals errs h
    obtain ⟨ord, ho, hb, hv, he⟩ := listContainers_returned_inv api d p sched vals errs h
    subst hv he
    exact ⟨⟨ord, ho, hb, rfl, rfl⟩,
      fun c hc v hv => List.mem_flatMap.mpr ⟨c, ho.mem_iff.mpr hc, hv⟩⟩
  · intro sched vals errs h
    obtain ⟨ord, ho, hb, hv, he⟩ := listImages_returned_inv api d p sched vals errs h
    subst hv he
    exact ⟨⟨ord, ho, hb, rfl, rfl⟩,
      fun c hc v hv => List.mem_flatMap.mpr ⟨c, ho.mem_iff.mpr hc, hv⟩⟩

/-- C4 at the group `A, B` where `B` returns the container and the image `stale` next to
its error: both listings return, and the value is in the list returned. -/
theorem list_operations_append_unconditionally_witness :
    ListImages staleOps groupAB () (seqSchedule 2)
        = .returned (["img1", "img2", "stale"], ["timeout"]) ∧
      "stale" ∈ ["img1", "img2", "stale"] ∧
      ListContainers staleOps groupAB () (seqSchedule 2)
        = .returned (["web", "stale"], ["timeout"]) ∧
      "stale" ∈ ["web", "stale"] ∧
      (∃ sched, ListContainers staleOps groupAB () sched
        = .returned (["stale", "web"], ["timeout"])) :=
  ⟨by decide,
    ((list_operations_append_unconditionally staleOps groupAB ()).2.2.2 (seqSchedule 2)
      ["img1", "img2", "stale"] ["timeout"] (by decide)).2 "B" (by decide) "stale"
      (by decide),
    by decide,
    ((list_operations_append_unconditionally staleOps groupAB ()).1.2.2 (seqSchedule 2)
      ["web", "stale"] ["timeout"] (by decide)).2 "B" (by decide) "stale" (by decide),
    (list_operations_append_unconditionally staleOps groupAB ()).1.2.1 ["B", "A"]
      (by decide)⟩

/-- C3, as the code has it. `ListContainers` and `ListImages` return their two lists:
every run that has started (the empty run included) can be continued to one on which the
operation returns. Whenever the operation returns, the error list has exactly `K`
entries, `K` the number of endpoints whose call returned a non-nil error, and the value
list holds the flattened values of all `N` endpoints, those of the failing endpoints
included. It is the flattened values of the succeeding ones only when every failing
endpoint returned an empty value list. -/
theorem list_operations_count_errors_keep_values (api : DockerOps D P Rev DF W E C I)
    (d : DockerGroup Cfg D) (p : P) :
    ((∀ sched s,
        exec (ListContainers.task api p) sched (BatchState.init d.clients) = some s →
        ∃ more vals errs, ListContainers api d p (sched ++ more) = .returned (vals, errs)) ∧
      (∀ sched vals errs, ListContainers api d p sched = .returned (vals, errs) →
        errs.length = d.clients.countP (fun c => (api.ListContainers c p).2.isSome) ∧
        vals.Perm (d.clients.flatMap (fun c => (api.ListContainers c p).1)) ∧
        ((∀ c ∈ d.clients, (api.ListContainers c p).2.isNone = false →
            (api.ListContainers c p).1 = []) →
          vals.Perm ((d.clients.filter (fun c => (api.ListContainers c p).2.isNone)).flatMap
            (fun c => (api.ListContainers c p).1))))) ∧
    ((∀ sched s, exec (ListImages.task api p) sched (BatchState.init d.clients) = some s →
        ∃ more vals errs, ListImages api d p (sched ++ more) = .returned (vals, errs)) ∧
      (∀ sched vals errs, ListImages api d p sched = .returned (vals, errs) →
        errs.length = d.clients.countP (fun c => (api.ListImages c p).2.isSome) ∧
        vals.Perm (d.clients.flatMap (fun c => (api.ListImages c p).1)) ∧
        ((∀ c ∈ d.clients, (api.ListImages c p).2.isNone = false →
            (api.ListImages c p).1 = []) →
          vals.Perm ((d.clients.filter (fun c => (api.ListImages c p).2.isNone)).flatMap
            (fun c => (api.ListImages c p).1))))) := by
  refine ⟨⟨listContainers_extends api d p, ?_⟩, ⟨listImages_extends api d p, ?_⟩⟩
  · intro sched vals errs h
    obtain ⟨ord, ho, _, hv, he⟩ := listContainers_returned_inv api d p sched vals errs h
    subst hv he
    refine ⟨?_, ho.flatMap_right _, fun hnil => ?_⟩
    · rw [length_filterMap_eq_countP]
      exact ho.countP_eq _
    · rw [flatMap_filter_of_nil _ _ d.clients hnil]
      exact ho.flatMap_right _
  · intro sched vals errs h
    obtain ⟨ord, ho, _, hv, he⟩ := listImages_returned_inv api d p sched vals errs h
    subst hv he
    refine ⟨?_, ho.flatMap_right _, fun hnil => ?_⟩
    · rw [length_filterMap_eq_countP]
      exact ho.countP_eq _
    · rw [flatMap_filter_of_nil _ _ d.clients hnil]
      exact ho.flatMap_right _

/-- C3 as the code has it, at the group `A, B` where `B` fails on `timeout` with no
value: both listings return one error and a value list that is a permutation of the
values of the succeeding endpoint, and a started run of each can be continued to its
return. -/
theorem list_operations_count_errors_keep_values_witness :
    ListImages diskFullOps groupAB () (seqSchedule 2)
        = .returned (["img1", "img2"], ["timeout"]) ∧
      ["timeout"].length
        = groupAB.clients.countP (fun c => (diskFullOps.ListImages c ()).2.isSome) ∧
      ["img1", "img2"].Perm
        ((groupAB.clients.filter (fun c => (diskFullOps.ListImages c ()).2.isNone)).flatMap
          (fun c => (diskFullOps.ListImages c ()).1)) ∧
      ListContainers diskFullOps groupAB () (seqSchedule 2)
        = .returned (["web"], ["timeout"]) ∧
      ["timeout"].length
        = groupAB.clients.countP (fun c => (diskFullOps.ListContainers c ()).2.isSome) ∧
      (∃ more vals errs, ListContainers diskFullOps groupAB () ([.spawn 1] ++ more)
        = .returned (vals, errs)) ∧
      (∃ more vals errs, ListImages diskFullOps groupAB () ([.spawn 1] ++ more)
        = .returned (vals, errs)) :=
  ⟨by decide,
    ((list_operations_count_errors_keep_values diskFullOps groupAB ()).2.2 (seqSchedule 2)
      ["img1", "img2"] ["timeout"] (by decide)).1,
    ((list_operations_count_errors_keep_values diskFullOps groupAB ()).2.2 (seqSchedule 2)
      ["img1", "img2"] ["timeout"] (by decide)).2.2 (by decide),
    by decide,
    ((list_operations_count_errors_keep_values diskFullOps groupAB ()).1.2 (seqSchedule 2)
      ["web"] ["timeout"] (by decide)).1,
    (list_operations_count_errors_keep_values diskFullOps groupAB ()).1.1 [.spawn 1] _ rfl,
    (list_operations_count_errors_keep_values diskFullOps groupAB ()).2.1 [.spawn 1] _ rfl⟩

/-- C3 fails as stated. In the group `A, B`, `A` returns the images `img1`, `img2` and no
error, `B` returns the image `stale` together with the error `timeout`. `ListImages`
returns the value list `img1, img2, stale`: the value of the failing endpoint is in it,
and the list is not the flattened values of the succeeding endpoint. -/
theorem listImages_keeps_values_of_failing_endpoint :
    ListImages staleOps groupAB () (seqSchedule 2)
        = .returned (["img1", "img2", "stale"], ["timeout"]) ∧
      staleOps.ListImages "B" () = (["stale"], some "timeout") ∧
      "stale" ∈ ["img1", "img2", "stale"] ∧
      ¬ ["img1", "img2", "stale"].Perm
        ((groupAB.clients.filter (fun c => (staleOps.ListImages c ()).2.isNone)).flatMap
          (fun c => (staleOps.ListImages c ()).1)) ∧
      ¬ (∀ sched vals errs,
          ListImages staleOps groupAB () sched = .returned (vals, errs) →
          ∀ c ∈ groupAB.clients, (staleOps.ListImages c ()).2 ≠ none →
            ∀ v ∈ (staleOps.ListImages c ()).1, v ∉ vals) := by
  refine ⟨by decide, by decide, by decide, ?_, ?_⟩
  · intro hp
    have := hp.length_eq
    revert this
    decide
  · intro hall
    have h := hall (seqSchedule 2) ["img1", "img2", "stale"] ["timeout"] (by decide)
      "B" (by decide) (by decide) "stale" (by decide)
    revert h
    decide

/-- C5. When every per-endpoint call of an operation returns a nil error, the operation
returns (some run returns), and whatever it returns has an empty error list; for
`ListContainers` and `ListImages` the value list has as many entries as the
per-endpoint value lists have together. On the group without end points every
operation returns an empty error list and an empty value list. -/
theorem all_succeed_returns_no_error (api : DockerOps D P Rev DF W E C I)
    (d : DockerGroup Cfg D) :
    (∀ op : ErrorOp P Rev DF W, (∀ c ∈ d.clients, op.call api c = none) →
      (∃ sched, op.invoke api d sched = .returned []) ∧
      ∀ sched errs, op.invoke api d sched = .returned errs → errs = []) ∧
    (∀ p : P, (∀ c ∈ d.clients, (api.ListContainers c p).2 = none) →
      (∃ sched vals, ListContainers api d p sched = .returned (vals, [])) ∧
      ∀ sched vals errs, ListContainers api d p sched = .returned (vals, errs) →
        errs = [] ∧
        vals.length = (d.clients.map (fun c => (api.ListContainers c p).1.length)).sum) ∧
    (∀ p : P, (∀ c ∈ d.clients, (api.ListImages c p).2 = none) →
      (∃ sched vals, ListImages api d p sched = .returned (vals, [])) ∧
      ∀ sched vals errs, ListImages api d p sched = .returned (vals, errs) →
        errs = [] ∧
        vals.length = (d.clients.map (fun c => (api.ListImages c p).1.length)).sum) ∧
    (d.dockers = [] →
      (∀ op : ErrorOp P Rev DF W,
        op.invoke api d [.endRange, .wait, .ret] = .returned [] ∧
        ∀ sched errs, op.invoke api d sched = .returned errs → errs = []) ∧
      (∀ p : P,
        ListContainers api d p [.endRange, .wait, .ret] = .returned ([], []) ∧
        ∀ sched out, ListContainers api d p sched = .returned out → out = ([], [])) ∧
      (∀ p : P,
        ListImages api d p [.endRange, .wait, .ret] = .returned ([], []) ∧
        ∀ sched out, ListImages api d p sched = .returned out → out = ([], []))) := by
  have hE : ∀ op : ErrorOp P Rev DF W, (∀ c ∈ d.clients, op.call api c = none) →
      ∀ sched errs, op.invoke api d sched = .returned errs → errs = [] := by
    intro op hall sched errs h
    obtain ⟨ord, ho, _, he⟩ := errorOp_returned_inv api d op sched errs h
    subst he
    exact (filterMap_eq_nil_iff_all_none _ ord).mpr (fun c hc => hall c (ho.mem_iff.mp hc))
  have hC : ∀ p : P, (∀ c ∈ d.clients, (api.ListContainers c p).2 = none) →
      ∀ sched vals errs, ListContainers api d p sched = .returned (vals, errs) →
        errs = [] ∧
        vals.length = (d.clients.map (fun c => (api.ListContainers c p).1.length)).sum := by
    intro p hall sched vals errs h
    obtain ⟨ord, ho, _, hv, he⟩ := listContainers_returned_inv api d p sched vals errs h
    subst hv he
    refine ⟨(filterMap_eq_nil_iff_all_none _ ord).mpr
      (fun c hc => hall c (ho.mem_iff.mp hc)), ?_⟩
    rw [(ho.flatMap_right _).length_eq, length_flatMap_eq_sum]
  have hI : ∀ p : P, (∀ c ∈ d.clients, (api.ListImages c p).2 = none) →
      ∀ sched vals errs, ListImages api d p sched = .returned (vals, errs) →
        errs = [] ∧
        vals.length = (d.clients.map (fun c => (api.ListImages c p).1.length)).sum := by
    intro p hall sched vals errs h
    obtain ⟨ord, ho, _, hv, he⟩ := listImages_returned_inv api d p sched vals errs h
    subst hv he
    refine ⟨(filterMap_eq_nil_iff_all_none _ ord).mpr
      (fun c hc => hall c (ho.mem_iff.mp hc)), ?_⟩
    rw [(ho.flatMap_right _).length_eq, length_flatMap_eq_sum]
  refine ⟨fun op hall => ⟨?_, hE op hall⟩, fun p hall => ⟨?_, hC p hall⟩,
    fun p hall => ⟨?_, hI p hall⟩, fun hempty => ?_⟩
  · obtain ⟨sched, errs, h⟩ := errorOp_returns api d op
    have := hE op hall sched errs h
    subst this
    exact ⟨sched, h⟩
  · obtain ⟨sched, ⟨vals, errs⟩, h⟩ := listContainers_returns api d p
    have := (hC p hall sched vals errs h).1
    subst this
    exact ⟨sched, vals, h⟩
  · obtain ⟨sched, ⟨vals, errs⟩, h⟩ := listImages_returns api d p
    have := (hI p hall sched vals errs h).1
    subst this
    exact ⟨sched, vals, h⟩
  · have hcl : d.clients = [] := by simp [DockerGroup.clients, hempty]
    have hrun : ∀ (R : Type) (f : D → R),
        batchInterfaceResult d f [.endRange, .wait, .ret] = some [] := by
      intro R f
      simp [batchInterfaceResult, hcl, exec, step, BatchState.init]
    refine ⟨fun op => ⟨?_, ?_⟩, fun p => ⟨?_, ?_⟩, fun p => ⟨?_, ?_⟩⟩
    · rw [errorOp_invoke_eq]
      simp [batchErrorResult, hrun, batchErrorResult.loop]
    · exact hE op (by simp [hcl])
    · simp [ListContainers, hrun, ListContainers.loop]
    · intro sched ⟨vals, errs⟩ h
      obtain ⟨h1, h2⟩ := hC p (by simp [hcl]) sched vals errs h
      simp [hcl] at h2
      simp [h1, h2]
    · simp [ListImages, hrun, ListImages.loop]
    · intro sched ⟨vals, errs⟩ h
      obtain ⟨h1, h2⟩ := hI p (by simp [hcl]) sched vals errs h
      simp [hcl] at h2
      simp [h1, h2]

/-- C5 at the healthy group `A, B, C` (two images on `A`, one on each of `B`, `C`) and at
the empty group. -/
theorem all_succeed_returns_no_error_witness :
    ListImages healthyOps groupABC () shuffledSchedule
        = .returned (["img3", "img3", "img1", "img2"], []) ∧
      ["img3", "img3", "img1", "img2"].length
        = (groupABC.clients.map (fun c => (healthyOps.ListImages c ()).1.length)).sum ∧
      Clean healthyOps groupEmpty () [.endRange, .wait, .ret] = .returned [] :=
  ⟨by decide,
    (((all_succeed_returns_no_error healthyOps groupABC).2.2.1 () (by decide)).2
      shuffledSchedule ["img3", "img3", "img1", "img2"] [] (by decide)).2,
    ((all_succeed_returns_no_error healthyOps groupEmpty).2.2.2 rfl).1 (.clean ()) |>.1⟩

/-- C7. The aggregation does not depend on the order of collection. For each of the
three aggregation loops, two collections that are permutations of each other give error
lists (and value lists) that are permutations of each other; and for each group
operation, what two runs return, whatever their schedules, are permutations of each
other, error list and value list alike. -/
theorem aggregation_is_order_independent (api : DockerOps D P Rev DF W E C I)
    (d : DockerGroup Cfg D) :
    (∀ rs₁ rs₂ : List (Dyn E C I), rs₁.Perm rs₂ →
      (∀ e₁ e₂, batchErrorResult.loop rs₁ [] = some e₁ →
        batchErrorResult.loop rs₂ [] = some e₂ → e₁.Perm e₂) ∧
      (∀ o₁ o₂, ListContainers.loop rs₁ ([], []) = some o₁ →
        ListContainers.loop rs₂ ([], []) = some o₂ → o₁.1.Perm o₂.1 ∧ o₁.2.Perm o₂.2) ∧
      (∀ o₁ o₂, ListImages.loop rs₁ ([], []) = some o₁ →
        ListImages.loop rs₂ ([], []) = some o₂ → o₁.1.Perm o₂.1 ∧ o₁.2.Perm o₂.2)) ∧
    (∀ (op : ErrorOp P Rev DF W) sched₁ sched₂ e₁ e₂,
      op.invoke api d sched₁ = .returned e₁ → op.invoke api d sched₂ = .returned e₂ →
      e₁.Perm e₂) ∧
    (∀ (p : P) sched₁ sched₂ o₁ o₂,
      ListContainers api d p sched₁ = .returned o₁ →
      ListContainers api d p sched₂ = .returned o₂ → o₁.1.Perm o₂.1 ∧ o₁.2.Perm o₂.2) ∧
    (∀ (p : P) sched₁ sched₂ o₁ o₂,
      ListImages api d p sched₁ = .returned o₁ →
      ListImages api d p sched₂ = .returned o₂ → o₁.1.Perm o₂.1 ∧ o₁.2.Perm o₂.2) := by
  refine ⟨fun rs₁ rs₂ hp => ⟨?_, ?_, ?_⟩, ?_, ?_, ?_⟩
  · intro e₁ e₂ h₁ h₂
    rw [batchErrorResult_loop_eq] at h₁ h₂
    split at h₁
    · split at h₂
      · injection h₁ with h₁
        injection h₂ with h₂
        subst h₁ h₂
        simpa using hp.filterMap Dyn.err
      · cases h₂
    · cases h₁
  · intro o₁ o₂ h₁ h₂
    rw [listContainers_loop_eq] at h₁ h₂
    split at h₁
    · split at h₂
      · injection h₁ with h₁
        injection h₂ with h₂
        subst h₁ h₂
        exact ⟨by simpa using hp.flatMap_right Dyn.containers,
          by simpa using hp.filterMap Dyn.err⟩
      · cases h₂
    · cases h₁
  · intro o₁ o₂ h₁ h₂
    rw [listImages_loop_eq] at h₁ h₂
    split at h₁
    · split at h₂
      · injection h₁ with h₁
        injection h₂ with h₂
        subst h₁ h₂
        exact ⟨by simpa using hp.flatMap_right Dyn.images,
          by simpa using hp.filterMap Dyn.err⟩
      · cases h₂
    · cases h₁
  · intro op sched₁ sched₂ e₁ e₂ h₁ h₂
    obtain ⟨ord₁, ho₁, _, he₁⟩ := errorOp_returned_inv api d op sched₁ e₁ h₁
    obtain ⟨ord₂, ho₂, _, he₂⟩ := errorOp_returned_inv api d op sched₂ e₂ h₂
    subst he₁ he₂
    exact (ho₁.trans ho₂.symm).filterMap _
  · intro p sched₁ sched₂ ⟨v₁, e₁⟩ ⟨v₂, e₂⟩ h₁ h₂
    obtain ⟨ord₁, ho₁, _, hv₁, he₁⟩ :=
      listContainers_returned_inv api d p sched₁ v₁ e₁ h₁
    obtain ⟨ord₂, ho₂, _, hv₂, he₂⟩ :=
      listContainers_returned_inv api d p sched₂ v₂ e₂ h₂
    subst hv₁ he₁ hv₂ he₂
    have ho := ho₁.trans ho₂.symm
    exact ⟨ho.flatMap_right _, ho.filterMap _⟩
  · intro p sched₁ sched₂ ⟨v₁, e₁⟩ ⟨v₂, e₂⟩ h₁ h₂
    obtain ⟨ord₁, ho₁, _, hv₁, he₁⟩ :=
      listImages_returned_inv api d p sched₁ v₁ e₁ h₁
    obtain ⟨ord₂, ho₂, _, hv₂, he₂⟩ :=
      listImages_returned_inv api d p sched₂ v₂ e₂ h₂
    subst hv₁ he₁ hv₂ he₂
    have ho := ho₁.trans ho₂.symm
    exact ⟨ho.flatMap_right _, ho.filterMap _⟩

/-- C7 at the healthy group `A, B, C`: the run that lets each goroutine finish at once
and the shuffled run of `ListImages` return value lists in different orders that are
permutations of each other. -/
theorem aggregation_is_order_independent_witness :
    ListImages healthyOps groupABC () (seqSchedule 3)
        = .returned (["img1", "img2", "img3", "img3"], []) ∧
      ListImages healthyOps groupABC () shuffledSchedule
        = .returned (["img3", "img3", "img1", "img2"], []) ∧
      ["img1", "img2", "img3", "img3"].Perm ["img3", "img3", "img1", "img2"] :=
  ⟨by decide, by decide,
    ((aggregation_is_order_independent healthyOps groupABC).2.2.2 () (seqSchedule 3)
      shuffledSchedule (["img1", "img2", "img3", "img3"], [])
      (["img3", "img3", "img1", "img2"], []) (by decide) (by decide)).1⟩

/-- C10. For each of the six group operations and every group: every value the dispatch
collects has the shape the aggregation loop casts to, so no run of the operation ends
with a failed type assertion, and the operation returns: every run that has started can
be continued to one on which the operation returns its lists. -/
theorem group_operations_never_raise (api : DockerOps D P Rev DF W E C I)
    (d : DockerGroup Cfg D) :
    (∀ op : ErrorOp P Rev DF W,
      (∀ sched rs, batchInterfaceResult d (op.task api) sched = some rs →
        ∀ e ∈ rs, ∃ r, e.asErrorResult = some r) ∧
      (∀ sched, op.invoke api d sched ≠ .raised) ∧
      (∀ sched s, exec (op.task api) sched (BatchState.init d.clients) = some s →
        ∃ more errs, op.invoke api d (sched ++ more) = .returned errs)) ∧
    (∀ p : P,
      (∀ sched rs, batchInterfaceResult d (ListContainers.task api p) sched = some rs →
        ∀ e ∈ rs, ∃ r, e.asListContainersResult = some r) ∧
      (∀ sched, ListContainers api d p sched ≠ .raised) ∧
      (∀ sched s,
        exec (ListContainers.task api p) sched (BatchState.init d.clients) = some s →
        ∃ more out, ListContainers api d p (sched ++ more) = .returned out)) ∧
    (∀ p : P,
      (∀ sched rs, batchInterfaceResult d (ListImages.task api p) sched = some rs →
        ∀ e ∈ rs, ∃ r, e.asListImagesResult = some r) ∧
      (∀ sched, ListImages api d p sched ≠ .raised) ∧
      (∀ sched s, exec (ListImages.task api p) sched (BatchState.init d.clients) = some s →
        ∃ more out, ListImages api d p (sched ++ more) = .returned out)) := by
  refine ⟨fun op => ⟨?_, ?_, ?_⟩, fun p => ⟨?_, ?_, ?_⟩, fun p => ⟨?_, ?_, ?_⟩⟩
  · intro sched rs h e he
    obtain ⟨c, _, hc⟩ := List.mem_map.mp ((batchInterfaceResult_perm h).mem_iff.mp he)
    rw [← hc, errorOp_task_eq]
    exact ⟨_, rfl⟩
  · intro sched hr
    rcases errorOp_cases api d op sched with ⟨_, hi⟩ | ⟨ord, _, _, ho⟩
    · rw [hi] at hr; cases hr
    · rw [ho] at hr; cases hr
  · intro sched s he
    obtain ⟨more, r, h⟩ := batchInterfaceResult_extend d (op.task api) sched s he
    rcases errorOp_cases api d op (sched ++ more) with ⟨hn, _⟩ | ⟨ord, _, _, ho⟩
    · rw [h] at hn; cases hn
    · exact ⟨more, _, ho⟩
  · intro sched rs h e he
    obtain ⟨c, _, hc⟩ := List.mem_map.mp ((batchInterfaceResult_perm h).mem_iff.mp he)
    rw [← hc, listContainers_task_eq]
    exact ⟨_, rfl⟩
  · intro sched hr
    rcases listContainers_cases api d p sched with ⟨_, hi⟩ | ⟨ord, _, _, ho⟩
    · rw [hi] at hr; cases hr
    · rw [ho] at hr; cases hr
  · intro sched s he
    obtain ⟨more, r, h⟩ :=
      batchInterfaceResult_extend d (ListContainers.task api p) sched s he
    rcases listContainers_cases api d p (sched ++ more) with ⟨hn, _⟩ | ⟨ord, _, _, ho⟩
    · rw [h] at hn; cases hn
    · exact ⟨more, _, ho⟩
  · intro sched rs h e he
    obtain ⟨c, _, hc⟩ := List.mem_map.mp ((batchInterfaceResult_perm h).mem_iff.mp he)
    rw [← hc, listImages_task_eq]
    exact ⟨_, rfl⟩
  · intro sched hr
    rcases listImages_cases api d p sched with ⟨_, hi⟩ | ⟨ord, _, _, ho⟩
    · rw [hi] at hr; cases hr
    · rw [ho] at hr; cases hr
  · intro sched s he
    obtain ⟨more, r, h⟩ := batchInterfaceResult_extend d (ListImages.task api p) sched s he
    rcases listImages_cases api d p (sched ++ more) with ⟨hn, _⟩ | ⟨ord, _, _, ho⟩
    · rw [h] at hn; cases hn
    · exact ⟨more, _, ho⟩

/-- C10 at the group `A, B, C` with `B` failing: `Run` under the shuffled schedule
returns its list, and does not raise. -/
theorem group_operations_never_raise_witness :
    Run diskFullOps groupABC () () shuffledSchedule = .returned ["disk full"] ∧
      Run diskFullOps groupABC () () shuffledSchedule ≠ .raised ∧
      Run diskFullOps groupABC () () midSchedule = .incomplete :=
  ⟨by decide,
    ((group_operations_never_raise diskFullOps groupABC).1 (.run () ())).2.1
      shuffledSchedule,
    by decide⟩

end Aggregation

/-! ## Construction of the group -/

section Construction

variable {Cfg D E : Type}

theorem mem_mapKeys_mapAssign (k : String) (v : D) (q : String) :
    ∀ m : List (String × D), q ∈ mapKeys (mapAssign m k v) ↔ q = k ∨ q ∈ mapKeys m
  | [] => by simp [mapAssign, mapKeys]
  | (a, b) :: rest => by
    have ih := mem_mapKeys_mapAssign k v q rest
    by_cases hak : a = k
    · subst hak
      simp [mapAssign, mapKeys]
    · simp only [mapAssign, if_neg hak]
      simp only [mapKeys, List.map_cons, List.mem_cons] at ih ⊢
      rw [ih]
      tauto

theorem nodup_mapKeys_mapAssign (k : String) (v : D) :
    ∀ m : List (String × D), (mapKeys m).Nodup → (mapKeys (mapAssign m k v)).Nodup
  | [], _ => by simp [mapAssign, mapKeys]
  | (a, b) :: rest, h => by
    by_cases hak : a = k
    · subst hak
      simpa [mapAssign, mapKeys] using h
    · have hnd : a ∉ mapKeys rest ∧ (mapKeys rest).Nodup := by
        simpa [mapKeys] using h
      have ih := nodup_mapKeys_mapAssign k v rest hnd.2
      have hmem := mem_mapKeys_mapAssign k v a rest
      simp only [mapAssign, if_neg hak]
      have hgoal : a ∉ mapKeys (mapAssign rest k v) ∧ (mapKeys (mapAssign rest k v)).Nodup := by
        refine ⟨fun hc => ?_, ih⟩
        rcases hmem.mp hc with h1 | h1
        · exact hak h1
        · exact hnd.1 h1
      simpa [mapKeys] using hgoal

theorem mapLookup_mapAssign (k : String) (v : D) (q : String) :
    ∀ m : List (String × D),
      mapLookup (mapAssign m k v) q = if q = k then some v else mapLookup m q
  | [] => by
    by_cases hq : q = k
    · simp [mapAssign, mapLookup, hq]
    · have hq' : ¬ k = q := fun h => hq h.symm
      simp [mapAssign, mapLookup, hq, hq']
  | (a, b) :: rest => by
    have ih := mapLookup_mapAssign k v q rest
    by_cases hak : a = k
    · subst hak
      by_cases hq : q = a
      · simp [mapAssign, mapLookup, hq]
      · have hq' : ¬ a = q := fun h => hq h.symm
        simp [mapAssign, mapLookup, hq, hq']
    · simp only [mapAssign, if_neg hak, mapLookup, ih]
      by_cases haq : a = q
      · have hqk : ¬ q = k := fun h => hak (haq.trans h)
        simp [haq, hqk]
      · simp [haq]

theorem newDockerGroup_loop_fails (NewDocker : String → Environment Cfg → D × Option E)
    (env : Environment Cfg) (ep : String) (post : List String) (e : E)
    (he : (NewDocker ep env).2 = some e) :
    ∀ (pre : List String) (dg : DockerGroup Cfg D),
      (∀ x ∈ pre, (NewDocker x env).2 = none) →
      NewDockerGroup.loop NewDocker env (pre ++ ep :: post) dg = (none, some e)
  | [], dg, _ => by
    simp only [List.nil_append, NewDockerGroup.loop]
    split
    · rename_i d heq
      rw [heq] at he
      cases he
    · rename_i d err heq
      rw [heq] at he
      simp only [Option.some.injEq] at he
      rw [he]
  | x :: pre, dg, h => by
    have hx := h x (List.mem_cons_self x pre)
    simp only [List.cons_append, NewDockerGroup.loop]
    split
    · exact newDockerGroup_loop_fails NewDocker env ep post e he pre _
        (fun y hy => h y (List.mem_cons_of_mem x hy))
    · rename_i d err heq
      rw [heq] at hx
      cases hx

theorem newDockerGroup_loop_succeeds (NewDocker : String → Environment Cfg → D × Option E)
    (env : Environment Cfg) :
    ∀ (rest : List String) (dg : DockerGroup Cfg D) (seen : List String),
      (∀ x ∈ rest, (NewDocker x env).2 = none) →
      (∀ k, k ∈ mapKeys dg.dockers ↔ k ∈ seen) →
      (mapKeys dg.dockers).Nodup →
      (∀ k ∈ seen, mapLookup dg.dockers k = some (NewDocker k env).1) →
      ∃ dg', NewDockerGroup.loop NewDocker env rest dg = (some dg', none) ∧
        dg'.environment = dg.environment ∧
        (∀ k, k ∈ mapKeys dg'.dockers ↔ k ∈ seen ++ rest) ∧
        (mapKeys dg'.dockers).Nodup ∧
        ∀ k ∈ seen ++ rest, mapLookup dg'.dockers k = some (NewDocker k env).1
  | [], dg, seen, _, hk, hn, hl => by
    refine ⟨dg, rfl, rfl, ?_, hn, ?_⟩
    · simpa using hk
    · simpa using hl
  | x :: rest, dg, seen, h, hk, hn, hl => by
    have hx := h x (List.mem_cons_self x rest)
    simp only [NewDockerGroup.loop]
    split
    · rename_i d heq
      have hd : (NewDocker x env).1 = d := by rw [heq]
      obtain ⟨dg', h1, h2, h3, h4, h5⟩ := newDockerGroup_loop_succeeds NewDocker env rest
        { dg with dockers := mapAssign dg.dockers x d } (seen ++ [x])
        (fun y hy => h y (List.mem_cons_of_mem x hy))
        (fun k => by
          simp only [mem_mapKeys_mapAssign, hk k, List.mem_append, List.mem_singleton]
          tauto)
        (nodup_mapKeys_mapAssign x d dg.dockers hn)
        (fun k hkm => by
          simp only [mapLookup_mapAssign]
          by_cases hkx : k = x
          · simp [hkx, hd]
          · simp only [if_neg hkx]
            rcases List.mem_append.mp hkm with h1 | h1
            · exact hl k h1
            · exact absurd (List.mem_singleton.mp h1) hkx)
      refine ⟨dg', h1, h2, ?_, h4, ?_⟩
      · simpa using h3
      · simpa using h5
    · rename_i d err heq
      rw [heq] at hx
      cases hx

theorem first_failure {α β : Type} (g : α → Option β) :
    ∀ l : List α, (∃ x ∈ l, g x ≠ none) →
      ∃ pre ep post e, l = pre ++ ep :: post ∧ (∀ x ∈ pre, g x = none) ∧ g ep = some e
  | [], h => by
    obtain ⟨x, hx, _⟩ := h
    cases hx
  | a :: rest, h => by
    cases ha : g a with
    | some e => exact ⟨[], a, rest, e, rfl, by simp, ha⟩
    | none =>
      have hrest : ∃ x ∈ rest, g x ≠ none := by
        obtain ⟨x, hx, hne⟩ := h
        rcases List.mem_cons.mp hx with h1 | h1
        · subst h1
          exact absurd ha hne
        · exact ⟨x, h1, hne⟩
      obtain ⟨pre, ep, post, e, hl, hpre, hep⟩ := first_failure g rest hrest
      refine ⟨a :: pre, ep, post, e, by simp [hl], ?_, hep⟩
      intro x hx
      rcases List.mem_cons.mp hx with h1 | h1
      · subst h1
        exact ha
      · exact hpre x h1

/-- C6. `NewDockerGroup` builds the whole group or none. If the constructor of the
client fails on an end point of the list and on none before it, `NewDockerGroup` returns
no group and that end point's error; when it fails on at least one end point there is
such a first failing end point. When it fails on none, `NewDockerGroup` returns a nil
error and a group on the given environment whose keys are exactly the listed end
points, each once, each mapped to the client built for it. -/
theorem newDockerGroup_atomic (NewDocker : String → Environment Cfg → D × Option E)
    (env : Environment Cfg) :
    (∀ pre ep post e, env.DockerEndPoints = pre ++ ep :: post →
      (∀ x ∈ pre, (NewDocker x env).2 = none) → (NewDocker ep env).2 = some e →
      NewDockerGroup NewDocker env = (none, some e)) ∧
    ((∃ x ∈ env.DockerEndPoints, (NewDocker x env).2 ≠ none) →
      ∃ pre ep post e, env.DockerEndPoints = pre ++ ep :: post ∧
        (∀ x ∈ pre, (NewDocker x env).2 = none) ∧ (NewDocker ep env).2 = some e ∧
        NewDockerGroup NewDocker env = (none, some e)) ∧
    ((∀ x ∈ env.DockerEndPoints, (NewDocker x env).2 = none) →
      ∃ dg, NewDockerGroup NewDocker env = (some dg, none) ∧
        dg.environment = env ∧
        (∀ k, k ∈ mapKeys dg.dockers ↔ k ∈ env.DockerEndPoints) ∧
        (mapKeys dg.dockers).Nodup ∧
        ∀ k ∈ env.DockerEndPoints, mapLookup dg.dockers k = some (NewDocker k env).1) := by
  have hfail : ∀ pre ep post e, env.DockerEndPoints = pre ++ ep :: post →
      (∀ x ∈ pre, (NewDocker x env).2 = none) → (NewDocker ep env).2 = some e →
      NewDockerGroup NewDocker env = (none, some e) := by
    intro pre ep post e hl hpre hep
    unfold NewDockerGroup
    rw [hl]
    exact newDockerGroup_loop_fails NewDocker env ep post e hep pre _ hpre
  refine ⟨hfail, ?_, ?_⟩
  · intro hex
    obtain ⟨pre, ep, post, e, hl, hpre, hep⟩ :=
      first_failure (fun x => (NewDocker x env).2) env.DockerEndPoints hex
    exact ⟨pre, ep, post, e, hl, hpre, hep, hfail pre ep post e hl hpre hep⟩
  · intro hall
    obtain ⟨dg, h1, h2, h3, h4, h5⟩ := newDockerGroup_loop_succeeds NewDocker env
      env.DockerEndPoints { environment := env, dockers := [] } [] hall
      (by simp [mapKeys]) (by simp [mapKeys]) (by simp)
    exact ⟨dg, h1, h2, by simpa using h3, h4, by simpa using h5⟩

/-- C6 at the list `A, B, C` with a constructor failing on `B` and on `C`: no group, and
the error of `B`; and at the list `A, B, A` with a constructor that succeeds: the group
of `A` and `B`. -/
theorem newDockerGroup_atomic_witness :
    NewDockerGroup failingNewDocker envABC = (none, some "no route to B") ∧
      NewDockerGroup goodNewDocker envABA
        = (some { environment := envABA, dockers := [("A", "A"), ("B", "B")] }, none) :=
  ⟨(newDockerGroup_atomic failingNewDocker envABC).1 ["A"] "B" ["C"] "no route to B" rfl
      (by decide) rfl,
    rfl⟩

end Construction

/-! ## Two overlapping calls -/

section TwoCalls

variable {D R : Type}

/-- A step changes the counter by as much as it changes the number of the call's own
goroutines that have not run `Done`. -/
theorem step_pending {f : D → R} {a : Action} {s t : BatchState D R}
    (hs : step f a s = some t) : t.wg - t.pending = s.wg - s.pending := by
  cases a with
  | spawn k =>
    simp only [step] at hs
    split at hs
    · split at hs
      · injection hs with hs
        subst hs
        simp only [BatchState.pending, List.length_append, List.length_singleton]
        push_cast
        ring
      · simp at hs
    · simp at hs
  | endRange =>
    simp only [step] at hs
    split at hs
    · injection hs with hs
      subst hs
      rfl
    · simp at hs
  | send k =>
    simp only [step] at hs
    split at hs
    · rename_i docker hk
      split at hs
      · injection hs with hs
        subst hs
        have hl := length_eraseIdx_of_getElem? s.running k docker hk
        have hl' : (s.running.length : Int) = ((s.running.eraseIdx k).length : Int) + 1 := by
          exact_mod_cast hl.symm
        simp only [BatchState.pending, hl']
        push_cast
        ring
      · simp at hs
    · simp at hs
  | done =>
    simp only [step] at hs
    split at hs
    · rename_i hg
      injection hs with hs
      subst hs
      have hf : ((s.finishing - 1 : Nat) : Int) = (s.finishing : Int) - 1 := by
        have := hg.1
        omega
      simp only [BatchState.pending, hf]
      ring
    · simp at hs
  | wait =>
    simp only [step] at hs
    split at hs
    · injection hs with hs
      subst hs
      rfl
    · simp at hs
  | recv =>
    simp only [step] at hs
    split at hs
    · split at hs
      · injection hs with hs
        subst hs
        rfl
      · simp at hs
    · simp at hs
  | ret =>
    simp only [step] at hs
    split at hs
    · injection hs with hs
      subst hs
      rfl
    · simp at hs

/-- A step taken with the shared counter is a step of the call run alone, once the
goroutines of the other call, `k` of them not yet done, are discounted. -/
theorem step_shift {f : D → R} {ds : List D} {a : Action} {s t : BatchState D R} (k : Int)
    (hk : 0 ≤ k) (hinv : Inv f ds { s with wg := s.wg - k }) (hs : step f a s = some t) :
    step f a { s with wg := s.wg - k } = some { t with wg := t.wg - k } := by
  have hwg : s.wg - k = (s.running.length : Int) + (s.finishing : Int) := hinv.wg_eq
  cases a with
  | spawn j =>
    simp only [step] at hs ⊢
    split at hs
    · rename_i hpc
      split at hs
      · rename_i docker hj
        injection hs with hs
        subst hs
        simp only [hpc, hj, if_true]
        congr 2
        ring
      · simp at hs
    · simp at hs
  | endRange =>
    simp only [step] at hs ⊢
    split at hs
    · rename_i hg
      injection hs with hs
      subst hs
      simp only [hg, and_self, if_true]
    · simp at hs
  | send j =>
    simp only [step] at hs ⊢
    split at hs
    · rename_i docker hj
      split at hs
      · rename_i hg
        injection hs with hs
        subst hs
        simp only [hj, hg, and_self, if_true]
      · simp at hs
    · simp at hs
  | done =>
    simp only [step] at hs ⊢
    split at hs
    · rename_i hg
      injection hs with hs
      subst hs
      have hpos : 0 < s.wg - k := by
        have := hg.1
        omega
      simp only [hg.1, hpos, and_self, if_true]
      congr 2
      ring
    · simp at hs
  | wait =>
    simp only [step] at hs ⊢
    split at hs
    · rename_i hg
      injection hs with hs
      subst hs
      have hz : s.wg - k = 0 := by
        have := hg.2
        omega
      simp only [hg.1, hz, and_self, if_true]
    · simp at hs
  | recv =>
    simp only [step] at hs ⊢
    split at hs
    · rename_i hg
      split at hs
      · rename_i v rest hb
        injection hs with hs
        subst hs
        simp only [hg, and_self, if_true, hb]
      · simp at hs
    · simp at hs
  | ret =>
    simp only [step] at hs ⊢
    split at hs
    · rename_i hg
      injection hs with hs
      subst hs
      simp only [hg.1, hg.2, not_false_eq_true, and_self, if_true]
    · simp at hs

theorem pending_nonneg (s : BatchState D R) : 0 ≤ s.pending := by
  unfold BatchState.pending
  omega

/-- The invariant of two overlapping calls: each call, with the goroutines of the other
discounted from the counter, satisfies the invariant of a call run alone. -/
theorem pair_inv_step {f₁ f₂ : D → R} {ds : List D} {side : Side} {a : Action}
    {ps ps' : PairState D R}
    (h1 : Inv f₁ ds { ps.first with wg := ps.wg - ps.second.pending })
    (h2 : Inv f₂ ds { ps.second with wg := ps.wg - ps.first.pending })
    (hs : pairStep f₁ f₂ side a ps = .ok ps') :
    Inv f₁ ds { ps'.first with wg := ps'.wg - ps'.second.pending } ∧
      Inv f₂ ds { ps'.second with wg := ps'.wg - ps'.first.pending } := by
  cases side with
  | first =>
    simp only [pairStep] at hs
    cases hst : step f₁ a { ps.first with wg := ps.wg } with
    | none => simp [hst] at hs
    | some t =>
      simp only [hst] at hs
      split at hs
      · cases hs
      · injection hs with hs
        subst hs
        have hsh := @step_shift D R f₁ ds a _ t ps.second.pending
          (pending_nonneg ps.second) h1 hst
        have hp := step_pending hst
        refine ⟨inv_step h1 hsh, ?_⟩
        have he : t.wg - t.pending = ps.wg - ps.first.pending := hp
        show Inv f₂ ds { ps.second with wg := t.wg - t.pending }
        rw [he]
        exact h2
  | second =>
    simp only [pairStep] at hs
    cases hst : step f₂ a { ps.second with wg := ps.wg } with
    | none => simp [hst] at hs
    | some t =>
      simp only [hst] at hs
      split at hs
      · cases hs
      · injection hs with hs
        subst hs
        have hsh := @step_shift D R f₂ ds a _ t ps.first.pending
          (pending_nonneg ps.first) h2 hst
        have hp := step_pending hst
        refine ⟨?_, inv_step h2 hsh⟩
        have he : t.wg - t.pending = ps.wg - ps.second.pending := hp
        show Inv f₁ ds { ps.first with wg := t.wg - t.pending }
        rw [he]
        exact h1

theorem pair_inv_exec {f₁ f₂ : D → R} {ds : List D} :
    ∀ (sched : List (Side × Action)) (ps ps' : PairState D R),
      Inv f₁ ds { ps.first with wg := ps.wg - ps.second.pending } →
      Inv f₂ ds { ps.second with wg := ps.wg - ps.first.pending } →
      pairExec f₁ f₂ sched ps = .ok ps' →
      Inv f₁ ds { ps'.first with wg := ps'.wg - ps'.second.pending } ∧
        Inv f₂ ds { ps'.second with wg := ps'.wg - ps'.first.pending }
  | [], ps, ps', h1, h2, he => by
    simp only [pairExec] at he
    injection he with he
    subst he
    exact ⟨h1, h2⟩
  | (side, a) :: rest, ps, ps', h1, h2, he => by
    simp only [pairExec] at he
    cases hst : pairStep f₁ f₂ side a ps with
    | ok ps1 =>
      simp only [hst] at he
      obtain ⟨g1, g2⟩ := pair_inv_step h1 h2 hst
      exact pair_inv_exec rest ps1 ps' g1 g2 he
    | disabled => simp [hst] at he
    | misuse => simp [hst] at he

/-- Two overlapping calls never exchange results: in every state an interleaving leads
to, a call that has returned has returned a permutation of its own values. -/
theorem pair_results_own (f₁ f₂ : D → R) (ds : List D) (sched : List (Side × Action))
    (ps : PairState D R) (he : pairExec f₁ f₂ sched (PairState.init ds) = .ok ps) :
    (∀ r, ps.result .first = some r → r.Perm (ds.map f₁)) ∧
      (∀ r, ps.result .second = some r → r.Perm (ds.map f₂)) := by
  have i1 : Inv f₁ ds { (PairState.init ds : PairState D R).first with
      wg := (PairState.init ds : PairState D R).wg
        - (PairState.init ds : PairState D R).second.pending } := by
    have := inv_init f₁ ds
    simpa [PairState.init, BatchState.init, BatchState.pending] using this
  have i2 : Inv f₂ ds { (PairState.init ds : PairState D R).second with
      wg := (PairState.init ds : PairState D R).wg
        - (PairState.init ds : PairState D R).first.pending } := by
    have := inv_init f₂ ds
    simpa [PairState.init, BatchState.init, BatchState.pending] using this
  obtain ⟨g1, g2⟩ := pair_inv_exec sched _ ps i1 i2 he
  constructor
  · intro r hr
    simp only [PairState.result] at hr
    split at hr
    · rename_i hpc
      injection hr with hr
      subst hr
      exact returned_perm (s := { ps.first with wg := ps.wg - ps.second.pending }) g1 hpc
    · cases hr
  · intro r hr
    simp only [PairState.result] at hr
    split at hr
    · rename_i hpc
      injection hr with hr
      subst hr
      exact returned_perm (s := { ps.second with wg := ps.wg - ps.first.pending }) g2 hpc
    · cases hr

theorem pairExec_append_of_ok (f₁ f₂ : D → R) :
    ∀ (s₁ s₂ : List (Side × Action)) (ps ps' : PairState D R),
      pairExec f₁ f₂ s₁ ps = .ok ps' →
      pairExec f₁ f₂ (s₁ ++ s₂) ps = pairExec f₁ f₂ s₂ ps'
  | [], s₂, ps, ps', he => by
    simp only [pairExec] at he
    injection he with he
    subst he
    rfl
  | (side, a) :: rest, s₂, ps, ps', he => by
    simp only [List.cons_append, pairExec] at he ⊢
    cases hst : pairStep f₁ f₂ side a ps with
    | ok ps1 =>
      simp only [hst] at he ⊢
      exact pairExec_append_of_ok f₁ f₂ rest s₂ ps1 ps' he
    | disabled => simp [hst] at he
    | misuse => simp [hst] at he

/-- While the second call has not started, the steps of the first call are those of a
call run alone. -/
theorem pairExec_first_alone (f₁ f₂ : D → R) :
    ∀ (sched : List Action) (ps : PairState D R) (t : BatchState D R),
      ps.second.pc = .ranging → ps.first.wg = ps.wg → exec f₁ sched ps.first = some t →
      pairExec f₁ f₂ (sched.map (fun a => (Side.first, a))) ps
        = .ok { first := t, second := ps.second, wg := t.wg }
  | [], ps, t, _, hw, he => by
    simp only [exec] at he
    injection he with he
    subst he
    simp only [List.map_nil, pairExec]
    rw [hw]
  | a :: rest, ps, t, hpc, hw, he => by
    have hview : ({ ps.first with wg := ps.wg } : BatchState D R) = ps.first := by
      rw [← hw]
    simp only [exec] at he
    cases hst : step f₁ a ps.first with
    | none => simp [hst] at he
    | some s1 =>
      simp only [hst, Option.some_bind] at he
      have hstep : pairStep f₁ f₂ .first a ps
          = .ok { first := s1, second := ps.second, wg := s1.wg } := by
        simp only [pairStep, hview, hst, hpc]
        simp
      simp only [List.map_cons, pairExec, hstep]
      exact pairExec_first_alone f₁ f₂ rest
        { first := s1, second := ps.second, wg := s1.wg } t hpc rfl he

theorem step_pc {f : D → R} {a : Action} {s t : BatchState D R}
    (hs : step f a s = some t) :
    t.pc = (match a with
      | .endRange => Pc.waiting
      | .wait => Pc.draining
      | .ret => Pc.returned
      | _ => s.pc) := by
  cases a with
  | spawn k =>
    simp only [step] at hs
    split at hs
    · split at hs
      · injection hs with hs
        subst hs
        rfl
      · simp at hs
    · simp at hs
  | endRange =>
    simp only [step] at hs
    split at hs
    · injection hs with hs
      subst hs
      rfl
    · simp at hs
  | send k =>
    simp only [step] at hs
    split at hs
    · split at hs
      · injection hs with hs
        subst hs
        rfl
      · simp at hs
    · simp at hs
  | done =>
    simp only [step] at hs
    split at hs
    · injection hs with hs
      subst hs
      rfl
    · simp at hs
  | wait =>
    simp only [step] at hs
    split at hs
    · injection hs with hs
      subst hs
      rfl
    · simp at hs
  | recv =>
    simp only [step] at hs
    split at hs
    · split at hs
      · injection hs with hs
        subst hs
        rfl
      · simp at hs
    · simp at hs
  | ret =>
    simp only [step] at hs
    split at hs
    · injection hs with hs
      subst hs
      rfl
    · simp at hs

/-- A call run alone reaches the state in which it is at `d.Wait()` with the counter at
zero. -/
theorem reaches_barrier_aux {f : D → R} {ds : List D} :
    ∀ (n : Nat) (s : BatchState D R), Inv f ds s → s.fuel ≤ n →
      s.pc = .ranging ∨ s.pc = .waiting →
      ∃ more t, exec f more s = some t ∧ t.pc = .waiting ∧ t.wg = 0
  | 0, s, _, hn, hpc => by
    have : 2 ≤ s.pc.rank := by
      rcases hpc with h | h <;> simp [h, Pc.rank]
    simp only [BatchState.fuel] at hn
    omega
  | n + 1, s, h, hn, hpc => by
    rcases hpc with hp | hp
    · cases ht : s.todo with
      | nil =>
        have hsome : (step f .endRange s).isSome := by simp [step, hp, ht]
        obtain ⟨s1, hs1⟩ := Option.isSome_iff_exists.mp hsome
        have hf := fuel_step hs1
        have hpc1 : s1.pc = .waiting := step_pc hs1
        obtain ⟨more, t, he, h1, h2⟩ :=
          reaches_barrier_aux n s1 (inv_step h hs1) (by omega) (Or.inr hpc1)
        exact ⟨.endRange :: more, t, by simp [exec, hs1, he], h1, h2⟩
      | cons x rest =>
        have hsome : (step f (.spawn 0) s).isSome := by simp [step, hp, ht]
        obtain ⟨s1, hs1⟩ := Option.isSome_iff_exists.mp hsome
        have hf := fuel_step hs1
        have hpc1 : s1.pc = .ranging := (step_pc hs1).trans hp
        obtain ⟨more, t, he, h1, h2⟩ :=
          reaches_barrier_aux n s1 (inv_step h hs1) (by omega) (Or.inl hpc1)
        exact ⟨.spawn 0 :: more, t, by simp [exec, hs1, he], h1, h2⟩
    · by_cases hr : 0 < s.running.length
      · obtain ⟨s1, hs1⟩ := send_enabled h 0 hr
        have hf := fuel_step hs1
        have hpc1 : s1.pc = .waiting := (step_pc hs1).trans hp
        obtain ⟨more, t, he, h1, h2⟩ :=
          reaches_barrier_aux n s1 (inv_step h hs1) (by omega) (Or.inr hpc1)
        exact ⟨.send 0 :: more, t, by simp [exec, hs1, he], h1, h2⟩
      · by_cases hfin : 0 < s.finishing
        · obtain ⟨s1, hs1⟩ := done_enabled h hfin
          have hf := fuel_step hs1
          have hpc1 : s1.pc = .waiting := (step_pc hs1).trans hp
          obtain ⟨more, t, he, h1, h2⟩ :=
            reaches_barrier_aux n s1 (inv_step h hs1) (by omega) (Or.inr hpc1)
          exact ⟨.done :: more, t, by simp [exec, hs1, he], h1, h2⟩
        · have hwg : s.wg = 0 := by rw [h.wg_eq]; omega
          exact ⟨[], s, rfl, hp, hwg⟩

/-- On every group with at least one client, two overlapping calls can reach the misuse
of the `WaitGroup`: the first call runs alone until it is at `d.Wait()` with the counter
back at zero, then the second call executes its first `d.Add(1)`. -/
theorem pair_misuse_reachable (f₁ f₂ : D → R) (ds : List D) (hne : ds ≠ []) :
    ∃ sched, pairExec f₁ f₂ sched (PairState.init ds) = .misuse := by
  obtain ⟨more, t, he, hpc, hwg⟩ := @reaches_barrier_aux D R f₁ ds
    (BatchState.init ds).fuel (BatchState.init ds) (inv_init f₁ ds) (Nat.le_refl _) (Or.inl rfl)
  have h1 := pairExec_first_alone f₁ f₂ more (PairState.init ds) t rfl rfl he
  refine ⟨more.map (fun a => (Side.first, a)) ++ [(.second, .spawn 0)], ?_⟩
  rw [pairExec_append_of_ok f₁ f₂ _ _ _ _ h1]
  obtain ⟨x, rest, hds⟩ := List.exists_cons_of_ne_nil hne
  subst hds
  simp [pairExec, pairStep, step, PairState.init, BatchState.init, Action.isAdd, hpc, hwg]

/-- C8. Two calls of `batchInterfaceResult` overlapping on one group with at least one
client. The channel is made per call, so the two calls never exchange results: in every
state an interleaving leads to, a call that has returned has returned a permutation of
its own values. The `WaitGroup` is the group's: some interleaving leads one call to
execute `d.Add(1)` with the counter at zero while the other call is at its `d.Wait()`,
the misuse of `sync.WaitGroup` on which the runtime raises, so that the calls do not
both return what they return when run alone. -/
theorem overlapping_calls_misuse_waitgroup (f₁ f₂ : D → R) (ds : List D) (hne : ds ≠ []) :
    (∃ sched, pairExec f₁ f₂ sched (PairState.init ds) = .misuse) ∧
    (∀ sched ps, pairExec f₁ f₂ sched (PairState.init ds) = .ok ps →
      (∀ r, ps.result .first = some r → r.Perm (ds.map f₁)) ∧
      (∀ r, ps.result .second = some r → r.Perm (ds.map f₂))) :=
  ⟨pair_misuse_reachable f₁ f₂ ds hne, fun sched ps he => pair_results_own f₁ f₂ ds sched ps he⟩

/-- C8 at the group `A, B` with `Deploy` and `ListImages` in flight. Run alone, `Deploy`
collects its two results. Under `overlapSchedule` both calls return their own results.
Under `barrierSchedule` the first call is at `d.Wait()` with the counter at zero and the
second has not started; its first `d.Add(1)`, the last step of `misuseSchedule`, is the
misuse. -/
theorem overlapping_calls_misuse_waitgroup_witness :
    batchInterfaceResult groupAB deployTask (seqSchedule 2)
        = some [deployTask "A", deployTask "B"] ∧
      (∃ ps, pairExec deployTask listImagesTask overlapSchedule
          (PairState.init groupAB.clients) = .ok ps ∧
        ps.result .first = some [deployTask "B", deployTask "A"] ∧
        ps.result .second = some [listImagesTask "B", listImagesTask "A"]) ∧
      (∃ ps, pairExec deployTask listImagesTask barrierSchedule
          (PairState.init groupAB.clients) = .ok ps ∧
        ps.first.pc = .waiting ∧ ps.wg = 0 ∧ ps.second.pc = .ranging ∧
        ps.result .first = none) ∧
      pairExec deployTask listImagesTask misuseSchedule (PairState.init groupAB.clients)
        = .misuse ∧
      (∃ sched, pairExec deployTask listImagesTask sched (PairState.init groupAB.clients)
        = .misuse) :=
  ⟨rfl, ⟨_, rfl, rfl, rfl⟩, ⟨_, rfl, rfl, rfl, rfl, rfl⟩, rfl,
    (overlapping_calls_misuse_waitgroup deployTask listImagesTask groupAB.clients
      (by decide)).1⟩

end TwoCalls

end Dockership
